import Mathlib

/-!
# Cannonball node-graph engine: verification of the specification's claims

The repository stores structured work (tasks, questions, decisions, artefacts,
plain bullets) as a tree of typed nodes, serialized to indented bullet
markdown with bracketed status tokens, and derives effective statuses
(notably a `Blocked` overlay) from children.

The engine implementation (the `cannonball` Python package: `Task`, `Bullet`,
`Question`, `Artefact`, `Decision`, `Node.from_markdown`, `to_markdown`,
`complete`/`start`/`block`) is not present under `src/`; `src/` holds a
notebook that calls it together with the notebook's recorded outputs, the
README, and a style guide.  The definitions below are therefore modelled
from the specification's words, constrained and validated by the recorded
notebook outputs wherever those outputs pin the behaviour down:

* notebook cell 1 records `to_markdown` output in which ancestors of a
  blocked descendant render with the `[!]` token even though no explicit
  status was ever set on them, and an explicitly `block()`-ed childless
  task renders `[!]`;
* notebook cell 2 records `Artefact(...)` rendering as `[a]` and
  `Decision(...)` rendering as `[$]`.

Validation theorems below reproduce those recorded outputs exactly from the
model.
-/

set_option maxRecDepth 100000

namespace Cannonball

/-- Work-item (Task) status vocabulary, from spec section 4.2.  `Blocked` is a
member of the vocabulary; the notebook shows a childless task rendering `[!]`
immediately after `block()`, so `Blocked` also occurs as a stored status. -/
inductive TaskStatus where
  | Open
  | InProgress
  | Done
  | Cancelled
  | Blocked
deriving DecidableEq

/-- Question (resolution family) status vocabulary, from spec section 4.2. -/
inductive QuestionStatus where
  | Open
  | Resolved
deriving DecidableEq

/-- Node variant together with its variant-specific stored status, covering
the variants that appear in the source (`Task`, `Bullet`, `Question`,
`Artefact`, `Decision`) plus `Alternative` from the README's node-type
table. -/
inductive NodeKind where
  | task (s : TaskStatus)
  | bullet
  | question (s : QuestionStatus)
  | artefact
  | alternative
  | decision
deriving DecidableEq

mutual
/-- A node: variant+status, text, optional anchor, referenced anchors
(dependency edges, used by Decisions to select an option), ordered
children.  Mirrors the data model of spec section 3. -/
inductive Node where
  | mk (kind : NodeKind) (text : String) (anchor : Option String)
       (refs : List String) (children : Forest)

/-- An ordered sequence of sibling nodes. -/
inductive Forest where
  | nil
  | cons (hd : Node) (tl : Forest)
end

def Node.kind : Node → NodeKind
  | .mk k _ _ _ _ => k

def Node.text : Node → String
  | .mk _ t _ _ _ => t

def Node.anchor : Node → Option String
  | .mk _ _ a _ _ => a

def Node.refs : Node → List String
  | .mk _ _ _ r _ => r

def Node.children : Node → Forest
  | .mk _ _ _ _ cs => cs

/-- Forest viewed as a list of its root nodes. -/
def Forest.toList : Forest → List Node
  | .nil => []
  | .cons n f => n :: f.toList

/-- List of nodes viewed as a forest. -/
def ofList : List Node → Forest
  | [] => .nil
  | n :: ns => .cons n (ofList ns)

/-! ## Derived (effective) status, spec section 4.3.

Spec section 9 records that the source computes derived status by lazy
recomputation via attribute access, i.e. as recursive properties over the
children.  The recursion below is fixed by the recorded cell-1 output: the
task `Design Endpoints`, whose only direct work-item child is `Done` but
which has a plain bullet child wrapping a blocked task, renders `[!]` —
so blocking state is visible through inert bullet children. -/

mutual
/-- Does this node (as the root of its subtree) contain a Decision that has
selected an option, i.e. a decision node with a nonempty reference set?
Modelled from the spec: a Decision holds a reference to the chosen
Alternative (section 4.2); the registry-side check that the target anchor
names an Alternative is not in `src/` and is not modelled. -/
def hasSelDecN : Node → Bool
  | .mk k _ _ r cs => (decide (k = .decision) && !r.isEmpty) || hasSelDecF cs

/-- Does any node of the forest's subtrees contain a selected Decision? -/
def hasSelDecF : Forest → Bool
  | .nil => false
  | .cons n f => hasSelDecN n || hasSelDecF f
end

mutual
/-- Does this node, as a child, put its parent in a blocked state?
Work items block while non-terminal; Questions block while effectively
open; bullets transparently forward their own children's blocking state
(forced by the recorded cell-1 output); artefacts, alternatives and
decisions never block. -/
def blocksParent : Node → Bool
  | .mk (.task s) _ _ _ _ => decide (s ≠ .Done ∧ s ≠ .Cancelled)
  | .mk (.question s) _ _ _ cs => decide (s = .Open) && !hasSelDecF cs
  | .mk .bullet _ _ _ cs => anyBlocksF cs
  | .mk .artefact _ _ _ _ => false
  | .mk .alternative _ _ _ _ => false
  | .mk .decision _ _ _ _ => false

/-- Does any node of the forest block the parent that owns it? -/
def anyBlocksF : Forest → Bool
  | .nil => false
  | .cons n f => blocksParent n || anyBlocksF f
end

/-- Effective blocked overlay of a node: a task is effectively blocked when
it is not terminal and either its stored status is `Blocked` or some child
blocks it.  Other variants never show a blocked overlay (spec 4.3 rule 3). -/
def effBlockedB : Node → Bool
  | .mk (.task s) _ _ _ cs =>
      decide (s ≠ .Done ∧ s ≠ .Cancelled) && (decide (s = .Blocked) || anyBlocksF cs)
  | _ => false

/-- Effective kind of a node: the stored variant+status with the derived
overlays applied (blocked overlay for tasks, derived resolution for
questions). -/
def effKind : Node → NodeKind
  | n@(.mk (.task s) _ _ _ _) => .task (if effBlockedB n then .Blocked else s)
  | .mk (.question s) _ _ _ cs =>
      .question (if s = .Resolved || hasSelDecF cs then .Resolved else .Open)
  | .mk k _ _ _ _ => k

/-! ## Serializer (`to_markdown`).

One line per node, indentation of four spaces per depth level, bullet
marker `- `, a bracketed status token for statused variants, the text, and
a trailing `^anchor` token for the node's anchor (or, on a Decision, for
its selected reference, following the README's `- [D] Selected ^alt1`
usage).  The emitted token is the token of the node's *effective* kind:
this is forced by the recorded cell-1 output, where never-mutated
ancestors of a blocked task render `[!]`. -/

/-- Bracket-token character of each variant+status.  The evidenced entries
are `' '`/`'x'`/`'!'` (cell-1 output), `'?'` (cell-2 output), `'a'` for
Artefact and `'$'` for Decision (cell-2 output), `'A'` (parsed in cell 3).
`'/'`, `'c'`, `'R'` complete the table for states whose token is recorded
nowhere in `src/`; no claim below depends on those three choices. -/
def statusChar : NodeKind → Option Char
  | .task .Open => some ' '
  | .task .InProgress => some '/'
  | .task .Done => some 'x'
  | .task .Cancelled => some 'c'
  | .task .Blocked => some '!'
  | .question .Open => some '?'
  | .question .Resolved => some 'R'
  | .bullet => none
  | .artefact => some 'a'
  | .alternative => some 'A'
  | .decision => some '$'

/-- The characters `[X] ` of a status token, or nothing for a bullet. -/
def tokenPart (k : NodeKind) : List Char :=
  match statusChar k with
  | some c => ['[', c, ']', ' ']
  | none => []

/-- Trailing ` ^name` characters for an anchor. -/
def anchorPart : Option String → List Char
  | some a => ' ' :: '^' :: a.data
  | none => []

/-- Trailing ` ^name` characters for a Decision's selected reference. -/
def refsPart : List String → List Char
  | [] => []
  | r :: _ => ' ' :: '^' :: r.data

/-- Indentation: `n` spaces. -/
def spacesC (n : Nat) : List Char := List.replicate n ' '

/-- The characters of a node's line after the `- ` marker: status token of
the effective kind, text, trailing anchor (selection reference for a
Decision). -/
def afterMarker (n : Node) : List Char :=
  tokenPart (effKind n) ++ n.text.data ++
    (match n.kind with
     | .decision => refsPart n.refs
     | _ => anchorPart n.anchor)

/-- The serialized line of one node at the given depth. -/
def lineOf (lvl : Nat) (n : Node) : List Char :=
  spacesC (4 * lvl) ++ '-' :: ' ' :: afterMarker n

mutual
/-- All serialized lines of a node's subtree, preorder. -/
def linesN (lvl : Nat) : Node → List (List Char)
  | .mk k t a r cs => lineOf lvl (.mk k t a r cs) :: linesF (lvl + 1) cs

/-- All serialized lines of a forest, preorder. -/
def linesF (lvl : Nat) : Forest → List (List Char)
  | .nil => []
  | .cons n f => linesN lvl n ++ linesF lvl f
end

/-- Join lines with newline characters. -/
def joinLines : List (List Char) → List Char
  | [] => []
  | [l] => l
  | l :: ls => l ++ '\n' :: joinLines ls

/-- `to_markdown`: serialize a node's subtree to markdown text. -/
def to_markdown (n : Node) : String :=
  String.mk (joinLines (linesN 0 n))

/-! ## The notebook's concrete trees and recorded outputs. -/

/-- Leaf-node helper. -/
def leaf (k : NodeKind) (t : String) : Node := .mk k t none [] .nil

/-- Node-with-children helper. -/
def branch (k : NodeKind) (t : String) (cs : List Node) : Node :=
  .mk k t none [] (ofList cs)

/-- Cell 1 of the notebook: the subtree rooted at `task1` after
`subtask3.complete()`, `subtask4.complete()`, `subtask5.block()`. -/
def cell1Task1 : Node :=
  branch (.task .Open) "Implement API"
    [ branch (.task .Open) "Design Endpoints"
        [ leaf (.task .Done) "Backend Requirements"
        , branch .bullet "API"
            [ leaf (.task .Done) "API Implementation"
            , leaf (.task .Blocked) "API Testing" ] ]
    , leaf (.task .Open) "Implement Authentication" ]

/-- The recorded stdout of `print(task1.to_markdown())` in cell 1, minus the
final newline added by `print`. -/
def cell1Recorded : String :=
  "- [!] Implement API\n    - [!] Design Endpoints\n        - [x] Backend Requirements\n        - API\n            - [x] API Implementation\n            - [!] API Testing\n    - [ ] Implement Authentication"

/-- Cell 2 of the notebook: the Question tree with bullets, an Artefact and
a Decision. -/
def cell2Question : Node :=
  branch (.question .Open) "What graph library should I use?"
    [ branch .bullet "NetworkX" [ leaf (.task .Open) "Check documentation" ]
    , leaf .bullet "Graph-tool"
    , leaf .bullet "igraph"
    , leaf .artefact "NetworkX"
    , leaf .decision "Use NetworkX" ]

/-- The recorded stdout of `print(question.to_markdown())` in cell 2, minus
the final newline added by `print`. -/
def cell2Recorded : String :=
  "- [?] What graph library should I use?\n    - NetworkX\n        - [ ] Check documentation\n    - Graph-tool\n    - igraph\n    - [a] NetworkX\n    - [$] Use NetworkX"

/-- The model reproduces the notebook's recorded cell-1 serialization
exactly. -/
theorem to_markdown_cell1_recorded : to_markdown cell1Task1 = cell1Recorded := by
  decide

/-- The model reproduces the notebook's recorded cell-2 serialization
exactly. -/
theorem to_markdown_cell2_recorded : to_markdown cell2Question = cell2Recorded := by
  decide

/-! ## Mutual induction helper. -/

/-- Simultaneous induction over nodes and forests. -/
theorem node_forest_induction (P : Node → Prop) (Q : Forest → Prop)
    (hmk : ∀ k t a r cs, Q cs → P (.mk k t a r cs))
    (hnil : Q .nil)
    (hcons : ∀ n f, P n → Q f → Q (.cons n f)) :
    (∀ n, P n) ∧ (∀ f, Q f) :=
  ⟨fun n => @Node.rec P Q hmk hnil hcons n, fun f => @Forest.rec P Q hmk hnil hcons f⟩

/-! ## Explicit status mutations (Task work-item operations).

The notebook calls `complete()`, `start()`, `block()` on tasks.  `complete`,
`start` and the transition table are modelled from spec section 4.2
(`Open/InProgress` toggles, `* → Done`, `* → Cancelled`); `block` is
modelled from the recorded cell-1 output, where `subtask5.block()` makes the
childless, reference-free task `API Testing` render `[!]` — by the spec's
own tie-breaks (zero children and empty references never derive `Blocked`)
that state must be stored on the node itself. -/

inductive WIOp where
  | complete
  | start
  | reopen
  | cancel
  | block
deriving DecidableEq

/-- Effect of one work-item operation on a stored task status. -/
def applyOp : TaskStatus → WIOp → TaskStatus
  | _, .complete => .Done
  | _, .cancel => .Cancelled
  | s, .start => if s = .Open then .InProgress else s
  | s, .reopen => if s = .InProgress then .Open else s
  | s, .block => if s = .Done ∨ s = .Cancelled then s else .Blocked

/-- Effect of a sequence of work-item operations. -/
def applyOps : TaskStatus → List WIOp → TaskStatus
  | s, [] => s
  | s, op :: rest => applyOps (applyOp s op) rest

/-- `Task.block()` at the node level. -/
def blockTask : Node → Node
  | .mk (.task s) t a r cs =>
      .mk (.task (if s = .Done ∨ s = .Cancelled then s else .Blocked)) t a r cs
  | n => n

/-! ## Parse-side token table. -/

/-- Variant+status selected by a bracket token character (the parser's side
of the token table); inverse of `statusChar`, with `'D'` accepted for
Decision alongside the serializer's `'$'` (spec section 6 lists `D`/`$` as
Decision markers). -/
def tokenKind : Char → Option NodeKind
  | ' ' => some (.task .Open)
  | '/' => some (.task .InProgress)
  | 'x' => some (.task .Done)
  | 'c' => some (.task .Cancelled)
  | '!' => some (.task .Blocked)
  | '?' => some (.question .Open)
  | 'R' => some (.question .Resolved)
  | 'a' => some .artefact
  | 'A' => some .alternative
  | '$' => some .decision
  | 'D' => some .decision
  | _ => none

/-- The variant (without status) of a node kind, for claim-level statements
about the token table. -/
inductive VariantTag where
  | task
  | bullet
  | question
  | artefact
  | alternative
  | decision
deriving DecidableEq

def tagOf : NodeKind → VariantTag
  | .task _ => .task
  | .bullet => .bullet
  | .question _ => .question
  | .artefact => .artefact
  | .alternative => .alternative
  | .decision => .decision

/-! ## Claim-side status-propagation rule (spec section 4.3, rules (a)/(b)).

`specRuleDirect` transcribes the claimed rule literally: only *direct*
children are consulted, work-item children block while non-terminal,
Question children block while open.  Rule (c) concerns referenced nodes and
can only fire on a nonempty reference set (spec tie-break: "an empty
`references` set never triggers rule (c)"); the theorems carry a
no-references hypothesis so the omission of a reference registry cannot
affect them. -/

/-- Is this node a work-item-family node in a non-terminal state? -/
def isWorkItemNonTerminal : Node → Bool
  | .mk (.task s) _ _ _ _ => decide (s ≠ .Done ∧ s ≠ .Cancelled)
  | _ => false

/-- Is this node a Question that is effectively open? -/
def isOpenQuestion : Node → Bool
  | .mk (.question s) _ _ _ cs => decide (s = .Open) && !hasSelDecF cs
  | _ => false

/-- The claimed blocking rule, transcribed with direct children only. -/
def specRuleDirect : Node → Bool
  | .mk (.task s) _ _ _ cs =>
      decide (s ≠ .Done ∧ s ≠ .Cancelled) &&
        (cs.toList.any isWorkItemNonTerminal || cs.toList.any isOpenQuestion)
  | _ => false

mutual
/-- No reference edges anywhere in the subtree. -/
def noRefsN : Node → Bool
  | .mk _ _ _ r cs => r.isEmpty && noRefsF cs

/-- No reference edges anywhere in the forest. -/
def noRefsF : Forest → Bool
  | .nil => true
  | .cons n f => noRefsN n && noRefsF f
end

mutual
/-- Children expanded transitively through inert bullet nodes: a bullet
child contributes its own (expanded) children in its place. -/
def expandN : Node → List Node
  | .mk .bullet _ _ _ cs => expandF cs
  | n => [n]

/-- A forest expanded transitively through bullets. -/
def expandF : Forest → List Node
  | .nil => []
  | .cons n f => expandN n ++ expandF f
end

mutual
/-- All nodes of a subtree, preorder, the root included. -/
def subtreeN : Node → List Node
  | .mk k t a r cs => .mk k t a r cs :: subtreeF cs

/-- All nodes of a forest's subtrees. -/
def subtreeF : Forest → List Node
  | .nil => []
  | .cons n f => subtreeN n ++ subtreeF f
end

/-! ## Graph-manager operations: `set_status` (spec sections 4.1, 4.2, 4.6)
and `reparent` (spec sections 4.6, 9). -/

inductive EngineError where
  | InvalidTransition
  | CycleDetected
deriving DecidableEq

/-- A requested explicit status value, across all vocabularies. -/
inductive StatusVal where
  | Open
  | InProgress
  | Done
  | Cancelled
  | Blocked
  | Resolved
deriving DecidableEq

/-- Modelled from the spec: `set_status` applies an explicit transition when
section 4.2 defines one for the node's variant and fails with
`InvalidTransition` otherwise, leaving the node unchanged.  (The
implementation is not under `src/`; the repo's style guide line on error
handling concerns assertions/None returns, the spec's error taxonomy names
the failure `InvalidTransition`.) -/
def set_status (n : Node) (v : StatusVal) : Except EngineError Node :=
  match n with
  | .mk (.task s) t a r cs =>
      match v with
      | .InProgress =>
          if s = .Open then .ok (.mk (.task .InProgress) t a r cs)
          else .error .InvalidTransition
      | .Open =>
          if s = .InProgress then .ok (.mk (.task .Open) t a r cs)
          else .error .InvalidTransition
      | .Done => .ok (.mk (.task .Done) t a r cs)
      | .Cancelled => .ok (.mk (.task .Cancelled) t a r cs)
      | _ => .error .InvalidTransition
  | .mk (.question _) t a r cs =>
      match v with
      | .Resolved =>
          if cs.toList.any isOpenQuestion then .error .InvalidTransition
          else .ok (.mk (.question .Resolved) t a r cs)
      | _ => .error .InvalidTransition
  | _ => .error .InvalidTransition

/-- Variants for which no explicit status mutation is defined at all. -/
def noStatusOps : NodeKind → Bool
  | .bullet => true
  | .artefact => true
  | .alternative => true
  | .decision => true
  | _ => false

/-- Work-item-family status values (the claim's example transitions). -/
def isWorkVal : StatusVal → Bool
  | .InProgress => true
  | .Done => true
  | .Cancelled => true
  | .Blocked => true
  | _ => false

/-! ## Token-table lemmas (shared). -/

/-- Only bullets have no status token. -/
theorem statusChar_none_iff (k : NodeKind) : statusChar k = none ↔ k = .bullet := by
  cases k with
  | task s => cases s <;> simp [statusChar]
  | question s => cases s <;> simp [statusChar]
  | bullet => simp [statusChar]
  | artefact => simp [statusChar]
  | alternative => simp [statusChar]
  | decision => simp [statusChar]

/-- Parsing a serialized token returns the serialized variant+status. -/
theorem tokenKind_statusChar (k : NodeKind) (c : Char) (h : statusChar k = some c) :
    tokenKind c = some k := by
  cases k with
  | task s => cases s <;> (simp [statusChar] at h; subst h; rfl)
  | question s => cases s <;> (simp [statusChar] at h; subst h; rfl)
  | bullet => simp [statusChar] at h
  | artefact => simp [statusChar] at h; subst h; rfl
  | alternative => simp [statusChar] at h; subst h; rfl
  | decision => simp [statusChar] at h; subst h; rfl

/-- The serializer's token table is injective over variant+status. -/
theorem statusChar_injective (k1 k2 : NodeKind) (h : statusChar k1 = statusChar k2) :
    k1 = k2 := by
  cases hc : statusChar k1 with
  | none =>
      have h1 := (statusChar_none_iff k1).mp hc
      have h2 := (statusChar_none_iff k2).mp (by rw [← h, hc])
      rw [h1, h2]
  | some c =>
      have h1 := tokenKind_statusChar k1 c hc
      have h2 := tokenKind_statusChar k2 c (by rw [← h, hc])
      rw [h1] at h2
      exact Option.some.inj h2

/-! ## Blocking rule lemmas (shared). -/

/-- The recursive child-blocking check agrees with the bullet-transitive
expansion: a forest blocks its owner iff some transitively-expanded child is
a non-terminal work item or an open question. -/
theorem anyBlocksF_iff_expand : ∀ f : Forest,
    (anyBlocksF f = true ↔
      ∃ c ∈ expandF f, isWorkItemNonTerminal c = true ∨ isOpenQuestion c = true) := by
  refine (node_forest_induction
    (fun n => blocksParent n = true ↔
      ∃ c ∈ expandN n, isWorkItemNonTerminal c = true ∨ isOpenQuestion c = true)
    (fun f => anyBlocksF f = true ↔
      ∃ c ∈ expandF f, isWorkItemNonTerminal c = true ∨ isOpenQuestion c = true)
    ?_ ?_ ?_).2
  · intro k t a r cs ih
    cases k with
    | task s => simp [blocksParent, expandN, isWorkItemNonTerminal, isOpenQuestion]
    | question s => simp [blocksParent, expandN, isWorkItemNonTerminal, isOpenQuestion]
    | bullet => simpa [blocksParent, expandN] using ih
    | artefact => simp [blocksParent, expandN, isWorkItemNonTerminal, isOpenQuestion]
    | alternative => simp [blocksParent, expandN, isWorkItemNonTerminal, isOpenQuestion]
    | decision => simp [blocksParent, expandN, isWorkItemNonTerminal, isOpenQuestion]
  · simp [anyBlocksF, expandF]
  · intro n f ihn ihf
    simp only [anyBlocksF, expandF, Bool.or_eq_true, ihn, ihf]
    constructor
    · rintro (⟨c, hc, hp⟩ | ⟨c, hc, hp⟩)
      · exact ⟨c, List.mem_append_left _ hc, hp⟩
      · exact ⟨c, List.mem_append_right _ hc, hp⟩
    · rintro ⟨c, hc, hp⟩
      rcases List.mem_append.mp hc with h | h
      · exact .inl ⟨c, h, hp⟩
      · exact .inr ⟨c, h, hp⟩

/-- The recursive selected-decision check agrees with the subtree listing. -/
theorem hasSelDecF_iff_subtree : ∀ f : Forest,
    (hasSelDecF f = true ↔ ∃ d ∈ subtreeF f, d.kind = .decision ∧ d.refs ≠ []) := by
  refine (node_forest_induction
    (fun n => hasSelDecN n = true ↔ ∃ d ∈ subtreeN n, d.kind = .decision ∧ d.refs ≠ [])
    (fun f => hasSelDecF f = true ↔ ∃ d ∈ subtreeF f, d.kind = .decision ∧ d.refs ≠ [])
    ?_ ?_ ?_).2
  · intro k t a r cs ih
    simp only [hasSelDecN, subtreeN, Bool.or_eq_true, Bool.and_eq_true, ih,
      List.mem_cons, decide_eq_true_eq]
    constructor
    · rintro (⟨hk, hr⟩ | ⟨d, hd, hp⟩)
      · refine ⟨.mk k t a r cs, .inl rfl, ?_, ?_⟩
        · simpa [Node.kind] using hk
        · simpa [Node.refs, Bool.not_eq_true', List.isEmpty_iff] using hr
      · exact ⟨d, .inr hd, hp⟩
    · rintro ⟨d, hd | hd, hp⟩
      · subst hd
        refine .inl ⟨?_, ?_⟩
        · simpa [Node.kind] using hp.1
        · simpa [Bool.not_eq_true', List.isEmpty_iff, Node.refs] using hp.2
      · exact .inr ⟨d, hd, hp⟩
  · simp [hasSelDecF, subtreeF]
  · intro n f ihn ihf
    simp only [hasSelDecF, subtreeF, Bool.or_eq_true, ihn, ihf]
    constructor
    · rintro (⟨d, hd, hp⟩ | ⟨d, hd, hp⟩)
      · exact ⟨d, List.mem_append_left _ hd, hp⟩
      · exact ⟨d, List.mem_append_right _ hd, hp⟩
    · rintro ⟨d, hd, hp⟩
      rcases List.mem_append.mp hd with h | h
      · exact .inl ⟨d, h, hp⟩
      · exact .inr ⟨d, h, hp⟩

/-! ## Claims C2, C3, C4, C5, C7, C9. -/

/-- C2, counterexample.  The claim states the serializer emits the token of
the node's explicit status only and never the derived Blocked overlay.  In
the notebook's own cell-1 tree the root `Implement API` has explicit status
`Open` (no status operation was ever applied to it), whose token is `' '`,
yet its recorded serialized line — reproduced exactly by the model — starts
with `- [!]`: the derived Blocked overlay is persisted. -/
theorem c2_serializer_counterexample :
    cell1Task1.kind = .task .Open ∧
    statusChar cell1Task1.kind = some ' ' ∧
    to_markdown cell1Task1 = cell1Recorded ∧
    cell1Recorded.data.take 5 = "- [!]".data := by
  decide

/-- C3, counterexample.  The claim states no public mutation can make a
node's stored status `Blocked`.  But `Task.block()` is a public operation
(called twice in the notebook), and applying it to a childless,
reference-free open task — a node for which the spec's own tie-breaks
exclude any *derived* blocking — stores `Blocked` and serializes as `[!]`,
exactly as recorded for `API Testing` in cell 1. -/
theorem c3_block_counterexample :
    (blockTask (leaf (.task .Open) "API Testing")).kind = .task .Blocked ∧
    to_markdown (blockTask (leaf (.task .Open) "API Testing")) = "- [!] API Testing" := by
  decide

/-- C3, amended.  Excluding `block`, no sequence of the public work-item
operations ever stores `Blocked`: starting from any non-`Blocked` status,
applying any `block`-free operation sequence never yields `Blocked`. -/
theorem c3_no_blocked_without_block (s : TaskStatus) (ops : List WIOp)
    (hb : WIOp.block ∉ ops) (hs : s ≠ .Blocked) : applyOps s ops ≠ .Blocked := by
  induction ops generalizing s with
  | nil => simpa [applyOps] using hs
  | cons op rest ih =>
      have hop : op ≠ WIOp.block := fun h => hb (h ▸ List.mem_cons_self _ _)
      have hrest : WIOp.block ∉ rest := fun h => hb (List.mem_cons_of_mem _ h)
      have hstep : applyOp s op ≠ .Blocked := by
        cases op <;> cases s <;> simp_all [applyOp]
      simpa [applyOps] using ih (applyOp s op) hrest hstep

/-- C3, witness for the amended theorem at a concrete operation sequence. -/
theorem c3_no_blocked_without_block_witness :
    WIOp.block ∉ [WIOp.start, WIOp.complete] ∧ TaskStatus.Open ≠ .Blocked ∧
    applyOps .Open [WIOp.start, WIOp.complete] ≠ .Blocked :=
  ⟨by decide, by decide,
    c3_no_blocked_without_block .Open [WIOp.start, WIOp.complete] (by decide) (by decide)⟩

/-- The cell-1 subtree rooted at `Design Endpoints`: its only direct
work-item child is `Done`; the blocked task sits below a bullet child. -/
def designEndpoints : Node :=
  branch (.task .Open) "Design Endpoints"
    [ leaf (.task .Done) "Backend Requirements"
    , branch .bullet "API"
        [ leaf (.task .Done) "API Implementation"
        , leaf (.task .Blocked) "API Testing" ] ]

/-- C4, counterexample.  The claim's "exactly when" clause derives the
Blocked overlay only from *direct* work-item/question children (rules
(a)/(b); rule (c) cannot fire here, the subtree has no references).  The
`Design Endpoints` node of the recorded cell-1 output is effectively
Blocked — it renders `[!]` — although the claimed direct-children rule
evaluates to false on it: blocking is visible through the inert bullet
child. -/
theorem c4_rule_counterexample :
    effKind designEndpoints = .task .Blocked ∧
    specRuleDirect designEndpoints = false ∧
    noRefsN designEndpoints = true := by
  decide

/-- C4, amended.  A task's effective status is Blocked exactly when it is
non-terminal and either its stored status is `Blocked` or some child
*expanded transitively through inert bullet children* is a non-terminal
work item or an open question.  (References are empty by hypothesis, so the
claim's rule (c) cannot fire — spec 4.3 tie-break.)  The claim's first
sentence is the direct-child instance: an `Open` task child is its own
expansion, so a non-terminal task with an `Open` task child is Blocked. -/
theorem c4_blocked_iff_transitive (s : TaskStatus) (t : String) (a : Option String)
    (r : List String) (cs : Forest)
    (_hnr : noRefsN (.mk (.task s) t a r cs) = true) :
    effKind (.mk (.task s) t a r cs) = .task .Blocked ↔
      (s ≠ .Done ∧ s ≠ .Cancelled) ∧
        (s = .Blocked ∨
          ∃ c ∈ expandF cs, isWorkItemNonTerminal c = true ∨ isOpenQuestion c = true) := by
  have hb := anyBlocksF_iff_expand cs
  have he : effBlockedB (.mk (.task s) t a r cs) = true ↔
      (s ≠ .Done ∧ s ≠ .Cancelled) ∧ (s = .Blocked ∨ anyBlocksF cs = true) := by
    simp [effBlockedB, Bool.and_eq_true, Bool.or_eq_true, decide_eq_true_eq]
  by_cases h : effBlockedB (.mk (.task s) t a r cs) = true
  · refine iff_of_true ?_ ?_
    · simp [effKind, h]
    · rcases he.mp h with ⟨h1, h2⟩
      exact ⟨h1, h2.imp_right hb.mp⟩
  · have hne := (not_iff_not.mpr he).mp h
    have hsb : s ≠ .Blocked := by
      intro hsb
      subst hsb
      exact hne ⟨⟨by simp, by simp⟩, .inl rfl⟩
    refine iff_of_false ?_ ?_
    · simp only [effKind, h, if_false, NodeKind.task.injEq]
      exact hsb
    · intro ⟨h1, h2⟩
      exact hne ⟨h1, h2.imp_right hb.mpr⟩

/-- C4, witness: the root of the spec's own end-to-end example — an `Open`
task whose direct child is an `Open` task — is effectively Blocked. -/
theorem c4_blocked_iff_transitive_witness :
    noRefsN (.mk (.task .Open) "Implement API" none []
      (.cons (leaf (.task .Open) "Design Endpoints") .nil)) = true ∧
    effKind (.mk (.task .Open) "Implement API" none []
      (.cons (leaf (.task .Open) "Design Endpoints") .nil)) = .task .Blocked :=
  ⟨by decide,
    (c4_blocked_iff_transitive .Open "Implement API" none []
      (.cons (leaf (.task .Open) "Design Endpoints") .nil) (by decide)).mpr
      ⟨⟨by decide, by decide⟩,
        .inr ⟨leaf (.task .Open) "Design Endpoints",
          by exact List.mem_singleton.mpr rfl, .inl (by decide)⟩⟩⟩

/-- C5.  A Question's effective status is `Resolved` exactly when it was
explicitly resolved or some node of its subtree is a Decision holding a
(selection) reference; in particular a Decision child with an empty
reference set does not resolve it, adding a reference to a descendant
Decision resolves it, and removing the last such reference reverts it to
`Open` unless it was explicitly resolved. -/
theorem c5_question_resolution (s : QuestionStatus) (t : String) (a : Option String)
    (r : List String) (cs : Forest) :
    effKind (.mk (.question s) t a r cs) = .question .Resolved ↔
      (s = .Resolved ∨ ∃ d ∈ subtreeF cs, d.kind = .decision ∧ d.refs ≠ []) := by
  have hs := hasSelDecF_iff_subtree cs
  by_cases h : s = .Resolved ∨ hasSelDecF cs = true
  · refine iff_of_true ?_ (h.imp_right hs.mp)
    have : (decide (s = .Resolved) || hasSelDecF cs) = true := by
      rcases h with h | h
      · simp [h]
      · simp [h]
    simp [effKind, this]
  · push_neg at h
    obtain ⟨h1, h2⟩ := h
    have : (decide (s = .Resolved) || hasSelDecF cs) = false := by
      simp [h1, h2]
    refine iff_of_false ?_ ?_
    · simp [effKind, this]
    · rintro (hr | hr)
      · exact h1 hr
      · exact h2 (hs.mpr hr)

/-- C7.  Any status mutation not defined for the node's variant — any
request on a statusless variant (bullet, artefact, alternative, decision),
any work-item status value requested on a Question, or `Resolved`/`Blocked`
requested on a task — fails with `InvalidTransition`, producing no changed
node. -/
theorem c7_invalid_transition_rejected (n : Node) (v : StatusVal)
    (h : noStatusOps n.kind = true ∨
         ((∃ s, n.kind = .question s) ∧ isWorkVal v = true) ∨
         ((∃ s, n.kind = .task s) ∧ (v = .Resolved ∨ v = .Blocked))) :
    set_status n v = .error .InvalidTransition := by
  obtain ⟨k, t, a, r, cs⟩ := n
  rcases h with h | ⟨⟨s, hs⟩, hv⟩ | ⟨⟨s, hs⟩, hv⟩
  · cases k with
    | task s => simp [noStatusOps, Node.kind] at h
    | question s => simp [noStatusOps, Node.kind] at h
    | bullet => cases v <;> simp [set_status]
    | artefact => cases v <;> simp [set_status]
    | alternative => cases v <;> simp [set_status]
    | decision => cases v <;> simp [set_status]
  · simp only [Node.kind] at hs
    subst hs
    cases v <;> simp_all [set_status, isWorkVal]
  · simp only [Node.kind] at hs
    subst hs
    rcases hv with hv | hv <;> subst hv <;> simp [set_status]

/-- C7, witness: marking a bullet in-progress is rejected. -/
theorem c7_invalid_transition_rejected_witness :
    set_status (leaf .bullet "API") .InProgress = .error .InvalidTransition :=
  c7_invalid_transition_rejected (leaf .bullet "API") .InProgress (.inl (by decide))

/-- C9, counterexample.  The claim maps token `a` to the Alternative
variant; in the code — witnessed by the recorded cell-2 output, reproduced
exactly by the model — `a` is the token of the Artefact variant, which both
serializes to and parses from `a`. -/
theorem c9_token_counterexample :
    (tokenKind 'a').map tagOf = some VariantTag.artefact ∧
    (tokenKind 'a').map tagOf ≠ some VariantTag.alternative ∧
    statusChar .artefact = some 'a' ∧
    to_markdown cell2Question = cell2Recorded := by
  decide

/-- C9, amended.  The token table is a closed enumeration in which no two
distinct variant+status pairs serialize to the same token, every serialized
token parses back to the variant+status that produced it, and the
individual mappings are: empty = open Task, `x` = done Task, `?` =
Question, `$` (serialized) and `D` (parsed) = Decision, `a` = Artefact
(not Alternative), `A` = Alternative. -/
theorem c9_token_table :
    (∀ k1 k2 : NodeKind, statusChar k1 = statusChar k2 → k1 = k2) ∧
    (∀ (k : NodeKind) (c : Char), statusChar k = some c → tokenKind c = some k) ∧
    statusChar (.task .Open) = some ' ' ∧
    statusChar (.task .Done) = some 'x' ∧
    statusChar (.question .Open) = some '?' ∧
    statusChar .decision = some '$' ∧
    tokenKind 'D' = some .decision ∧
    statusChar .artefact = some 'a' ∧
    statusChar .alternative = some 'A' :=
  ⟨statusChar_injective, tokenKind_statusChar,
    rfl, rfl, rfl, rfl, rfl, rfl, rfl⟩

/-- C9, witness: the injectivity and round-trip clauses applied at the open
Task token. -/
theorem c9_token_table_witness :
    NodeKind.task .Open = NodeKind.task .Open ∧ tokenKind ' ' = some (.task .Open) :=
  ⟨c9_token_table.1 (.task .Open) (.task .Open) rfl,
    c9_token_table.2.1 (.task .Open) ' ' rfl⟩

/-! ## Claim C6: reparenting under a descendant is rejected.

Modelled from the spec: the Graph Manager's `reparent(node_id,
new_parent_id)` fails with `CycleDetected` if `new_parent_id` is a
descendant of `node_id` or equal to it (section 4.6), with the
arena-of-nodes-with-indices design of section 9 (flat table keyed by id,
parent stored per id) and the mutation-time ancestor-reachability check.
The notebook's last cell demonstrates the analogous third-party anytree
check (`LoopError` on `root.parent = child`).  The operation is a pure
function returning `Except`, so an error result leaves the arena value
untouched by construction. -/

/-- Flat id-keyed node table: each entry is `(id, parent id)`. -/
structure Arena where
  nodes : List (Nat × Option Nat)

/-- Parent pointer of an id (none for roots and unknown ids). -/
def Arena.parentOf (a : Arena) (i : Nat) : Option Nat :=
  match a.nodes.find? (fun q => q.1 == i) with
  | some (_, p) => p
  | none => none

/-- Ancestor chain of `i`, walking parent pointers at most `fuel` steps. -/
def ancestorsAux : Nat → Arena → Nat → List Nat
  | 0, _, _ => []
  | fuel + 1, a, i =>
      match a.parentOf i with
      | none => []
      | some p => p :: ancestorsAux fuel a p

/-- The engine's reachability check: is `d` equal to `n` or below it? -/
def Arena.isDescendant (a : Arena) (n d : Nat) : Bool :=
  decide (n = d ∨ n ∈ ancestorsAux (a.nodes.length + 1) a d)

/-- Overwrite the parent pointer of id `i`. -/
def Arena.setParent (a : Arena) (i p : Nat) : Arena :=
  ⟨a.nodes.map (fun q => if q.1 = i then (q.1, some p) else q)⟩

/-- `reparent(node_id, new_parent_id)` with the cycle check. -/
def reparent (a : Arena) (i newParent : Nat) : Except EngineError Arena :=
  if a.isDescendant i newParent then .error .CycleDetected
  else .ok (a.setParent i newParent)

/-- `d` lies in the subtree of `n` (reflexive-transitive parent reachability). -/
inductive IsDesc (a : Arena) (n : Nat) : Nat → Prop
  | refl : IsDesc a n n
  | step (c d : Nat) : IsDesc a n c → a.parentOf d = some c → IsDesc a n d

/-- `k`-fold parent iteration. -/
def iterP : Nat → Arena → Nat → Option Nat
  | 0, _, i => some i
  | k + 1, a, i =>
      match a.parentOf i with
      | none => none
      | some p => iterP k a p

theorem iterP_add (a : Arena) (k1 k2 d : Nat) :
    iterP (k1 + k2) a d = (iterP k1 a d).bind (fun x => iterP k2 a x) := by
  induction k1 generalizing d with
  | zero => simp [iterP]
  | succ k1 ih =>
      have : k1 + 1 + k2 = (k1 + k2) + 1 := by omega
      rw [this]
      simp only [iterP]
      cases a.parentOf d with
      | none => rfl
      | some p => exact ih p

/-- A node with a parent pointer occurs in the table. -/
theorem mem_ids_of_parentOf (a : Arena) (i p : Nat) (h : a.parentOf i = some p) :
    i ∈ a.nodes.map (fun q => q.1) := by
  unfold Arena.parentOf at h
  cases hf : a.nodes.find? (fun q => q.1 == i) with
  | none => rw [hf] at h; exact absurd h (by simp)
  | some e =>
      have hm := List.mem_of_find?_eq_some hf
      have hp := List.find?_some hf
      have : e.1 = i := by simpa using hp
      exact this ▸ List.mem_map_of_mem (fun q => q.1) hm

/-- Every prefix of a successful parent iteration succeeds. -/
theorem iterP_prefix (a : Arena) (k n d : Nat) (h : iterP k a d = some n) :
    ∀ j, j ≤ k → ∃ x, iterP j a d = some x := by
  intro j hj
  obtain ⟨m, rfl⟩ := Nat.exists_eq_add_of_le hj
  rw [iterP_add] at h
  cases hx : iterP j a d with
  | none => rw [hx] at h; exact absurd h (by simp)
  | some x => exact ⟨x, rfl⟩

/-- A successful parent iteration can be shortened below the table size. -/
theorem iterP_shorten (a : Arena) :
    ∀ k n d, iterP k a d = some n →
      ∃ k2 ≤ a.nodes.length, iterP k2 a d = some n := by
  intro k
  induction k using Nat.strong_induction_on with
  | _ k ih =>
    intro n d h
    by_cases hk : k ≤ a.nodes.length
    · exact ⟨k, hk, h⟩
    · push_neg at hk
      set L := a.nodes.length with hL
      have hmaps : ∀ j ∈ Finset.range (L + 1),
          (iterP j a d).getD 0 ∈ (a.nodes.map (fun q => q.1)).toFinset := by
        intro j hj
        have hj1 : j + 1 ≤ k := by
          have := Finset.mem_range.mp hj
          omega
        obtain ⟨x, hx⟩ := iterP_prefix a k n d h j (by omega)
        obtain ⟨y, hy⟩ := iterP_prefix a k n d h (j + 1) hj1
        rw [iterP_add] at hy
        rw [hx] at hy
        simp only [Option.some_bind] at hy
        have hpx : a.parentOf x = some y := by
          simp only [iterP] at hy
          cases hp : a.parentOf x with
          | none => rw [hp] at hy; exact absurd hy (by simp)
          | some p =>
              rw [hp] at hy
              simp only [iterP] at hy
              simpa using hy
        rw [hx]
        simp only [Option.getD_some]
        exact List.mem_toFinset.mpr (mem_ids_of_parentOf a x y hpx)
      have hcard : ((a.nodes.map (fun q => q.1)).toFinset).card < (Finset.range (L + 1)).card := by
        have h1 : ((a.nodes.map (fun q => q.1)).toFinset).card ≤ L := by
          calc ((a.nodes.map (fun q => q.1)).toFinset).card
              ≤ (a.nodes.map (fun q => q.1)).length := List.toFinset_card_le _
            _ = L := by simp [hL]
        simpa using Nat.lt_succ_of_le h1
      obtain ⟨i, hi, j, hj, hij, heq⟩ :=
        Finset.exists_ne_map_eq_of_card_lt_of_maps_to hcard hmaps
      rcases Nat.lt_or_ge i j with hlt | hge
      · obtain ⟨x, hx⟩ := iterP_prefix a k n d h i (by
          have := Finset.mem_range.mp hi; omega)
        obtain ⟨y, hy⟩ := iterP_prefix a k n d h j (by
          have := Finset.mem_range.mp hj; omega)
        have hxy : x = y := by
          have := heq
          rw [hx, hy] at this
          simpa using this
        have hjk : j ≤ k := by have := Finset.mem_range.mp hj; omega
        obtain ⟨m, hm⟩ := Nat.exists_eq_add_of_le hjk
        rw [hm, iterP_add, hy] at h
        simp only [Option.some_bind] at h
        have hnew : iterP (i + m) a d = some n := by
          rw [iterP_add, hx]
          simp only [Option.some_bind]
          rw [hxy]
          exact h
        exact ih (i + m) (by omega) n d hnew
      · have hlt : j < i := by omega
        obtain ⟨x, hx⟩ := iterP_prefix a k n d h j (by
          have := Finset.mem_range.mp hj; omega)
        obtain ⟨y, hy⟩ := iterP_prefix a k n d h i (by
          have := Finset.mem_range.mp hi; omega)
        have hxy : x = y := by
          have h2 := heq
          rw [hy, hx] at h2
          simpa using h2.symm
        have hik : i ≤ k := by have := Finset.mem_range.mp hi; omega
        obtain ⟨m, hm⟩ := Nat.exists_eq_add_of_le hik
        rw [hm, iterP_add, hy] at h
        simp only [Option.some_bind] at h
        have hnew : iterP (j + m) a d = some n := by
          rw [iterP_add, hx]
          simp only [Option.some_bind]
          rw [hxy]
          exact h
        exact ih (j + m) (by omega) n d hnew

/-- A short successful iteration lands in the fuel-bounded ancestor walk. -/
theorem mem_ancestorsAux_of_iterP (a : Arena) :
    ∀ k fuel n d, 1 ≤ k → k ≤ fuel → iterP k a d = some n →
      n ∈ ancestorsAux fuel a d := by
  intro k
  induction k with
  | zero => intro fuel n d h1; omega
  | succ k ih =>
      intro fuel n d _ hk h
      simp only [iterP] at h
      cases hp : a.parentOf d with
      | none => rw [hp] at h; exact absurd h (by simp)
      | some p =>
          rw [hp] at h
          obtain ⟨fuel', rfl⟩ : ∃ f, fuel = f + 1 := by
            cases fuel with
            | zero => omega
            | succ f => exact ⟨f, rfl⟩
          simp only [ancestorsAux, hp]
          rcases Nat.eq_zero_or_pos k with hk0 | hk1
          · subst hk0
            simp only [iterP] at h
            simp [Option.some_inj.mp h]
          · exact List.mem_cons_of_mem _ (ih fuel' n p hk1 (by omega) h)

/-- IsDesc yields a finite parent iteration. -/
theorem IsDesc.toIter (a : Arena) (n d : Nat) (h : IsDesc a n d) :
    ∃ k, iterP k a d = some n := by
  induction h with
  | refl => exact ⟨0, rfl⟩
  | step c e _ hpar ih =>
      obtain ⟨k, hk⟩ := ih
      refine ⟨k + 1, ?_⟩
      have : (1 : Nat) + k = k + 1 := by omega
      rw [← this, iterP_add]
      simp only [iterP, hpar]
      simpa using hk

/-- C6.  Reparenting a node under any node of its own subtree (itself
included) fails with `CycleDetected`; since the operation is a pure
function on the arena, the failed call leaves every parent/child edge
unchanged. -/
theorem c6_reparent_under_descendant_rejected (a : Arena) (n d : Nat)
    (h : IsDesc a n d) : reparent a n d = .error .CycleDetected := by
  obtain ⟨k, hk⟩ := h.toIter a n d
  have hdesc : a.isDescendant n d = true := by
    unfold Arena.isDescendant
    rcases Nat.eq_zero_or_pos k with hk0 | hk1
    · subst hk0
      simp only [iterP] at hk
      simp [Option.some_inj.mp hk]
    · obtain ⟨k2, hk2le, hk2⟩ := iterP_shorten a k n d hk
      rcases Nat.eq_zero_or_pos k2 with h0 | h1
      · subst h0
        simp only [iterP] at hk2
        simp [Option.some_inj.mp hk2]
      · have hm := mem_ancestorsAux_of_iterP a k2 (a.nodes.length + 1) n d h1
          (by omega) hk2
        simp [hm]
  simp [reparent, hdesc]

/-- Concrete three-node chain 1 ← 2 ← 3. -/
def arenaChain : Arena := ⟨[(1, none), (2, some 1), (3, some 2)]⟩

/-- C6, witness: moving node 1 under its grandchild 3 is rejected. -/
theorem c6_reparent_under_descendant_rejected_witness :
    reparent arenaChain 1 3 = .error .CycleDetected :=
  c6_reparent_under_descendant_rejected arenaChain 1 3
    (.step 2 3 (.step 1 2 .refl (by decide)) (by decide))

/-! ## Parser (`Node.from_markdown`).

Modelled from spec section 4.5 and the notebook's cell-3 usage: line-oriented
input, four-space indentation unit, the first line's indentation taken as
the root level (cell 3 parses a document whose every line carries a common
eight-space indentation), `- ` bullet marker, optional `[X]` status token,
free text, optional trailing `^anchor`.  Malformed indentation (an increase
of more than one level, a decrease below the root level, or an offset that
is not a whole number of levels) fails with `MalformedIndentation` carrying
the 1-based line number; an unrecognized token fails with
`UnknownNodeMarker`. -/

inductive ParseError where
  | MalformedIndentation (line : Nat)
  | UnknownNodeMarker (line : Nat)
  | MissingBullet (line : Nat)
  | EmptyDocument
  | MultipleRoots
  | Internal
deriving DecidableEq

def splitLinesAux : List Char → List Char → List (List Char)
  | [], acc => [acc.reverse]
  | c :: cs, acc =>
      if c = '\n' then acc.reverse :: splitLinesAux cs []
      else splitLinesAux cs (c :: acc)

/-- Split a character stream into its lines (newline-free segments). -/
def splitLines (cs : List Char) : List (List Char) := splitLinesAux cs []

/-- A line is blank when it consists of spaces only. -/
def isBlankLine (cs : List Char) : Bool := cs.all (fun c => c = ' ')

/-- Attach 1-based line numbers. -/
def numberFrom : Nat → List (List Char) → List (Nat × List Char)
  | _, [] => []
  | i, l :: ls => (i, l) :: numberFrom (i + 1) ls

/-- Numbered non-blank lines of a document. -/
def preLines (s : String) : List (Nat × List Char) :=
  (numberFrom 1 (splitLines s.data)).filter (fun p => !isBlankLine p.2)

/-- Number of leading spaces. -/
def countIndentC (cs : List Char) : Nat := (cs.takeWhile (fun c => c = ' ')).length

/-- Indentation pass: compute each line's level relative to `base` (the
first line's indentation), rejecting a drop below the root, a non-whole
level offset, or an increase of more than one level over the previous
line.  Returns the leveled lines (line number, level, content after the
indentation) and the last level. -/
def checkLevels (base : Nat) : Nat → List (Nat × List Char) →
    Except ParseError (List (Nat × Nat × List Char) × Nat)
  | prev, [] => .ok ([], prev)
  | prev, (no, cs) :: rest =>
      if countIndentC cs < base then .error (.MalformedIndentation no)
      else if (countIndentC cs - base) % 4 ≠ 0 then .error (.MalformedIndentation no)
      else if prev + 1 < (countIndentC cs - base) / 4 then .error (.MalformedIndentation no)
      else
        match checkLevels base ((countIndentC cs - base) / 4) rest with
        | .error e => .error e
        | .ok (out, p2) =>
            .ok ((no, (countIndentC cs - base) / 4, cs.drop (countIndentC cs)) :: out, p2)

/-- Finish the trailing-anchor split: `w` is the reversed candidate word,
`rem` the rest of the reversed line; an anchor is present when the word is
nonempty and preceded by `^` after a space. -/
def splitAnchorGo (cs w rem : List Char) : List Char × Option (List Char) :=
  match rem with
  | '^' :: ' ' :: rest =>
      if w.isEmpty then (cs, none) else (rest.reverse, some w.reverse)
  | _ => (cs, none)

/-- Split a trailing ` ^anchor` token off a line's tail text. -/
def splitAnchorC (cs : List Char) : List Char × Option (List Char) :=
  splitAnchorGo cs (cs.reverse.takeWhile (fun c => c != ' ' && c != '^'))
    (cs.reverse.drop (cs.reverse.takeWhile (fun c => c != ' ' && c != '^')).length)

/-- One lexed line. -/
structure LineRec where
  lineNo : Nat
  lvl : Nat
  kind : NodeKind
  text : String
  anchor : Option String
  refs : List String
deriving DecidableEq

/-- Does a line tail start with a `[X] ` token shape? -/
def startsTokenShape : List Char → Bool
  | '[' :: _ :: ']' :: ' ' :: _ => true
  | _ => false

/-- Lex a line's content after the `- ` marker: optional status token, text,
trailing anchor (stored as the selection reference on a Decision, following
the README's `- [D] Selected ^alt1` usage). -/
def lexAfterMarker (no lvl : Nat) (rest : List Char) : Except ParseError LineRec :=
  match rest with
  | '[' :: c :: ']' :: ' ' :: txt =>
      match tokenKind c with
      | some k =>
          if k = .decision then
            .ok ⟨no, lvl, k, String.mk (splitAnchorC txt).1, none,
              ((splitAnchorC txt).2.map String.mk).toList⟩
          else
            .ok ⟨no, lvl, k, String.mk (splitAnchorC txt).1,
              (splitAnchorC txt).2.map String.mk, []⟩
      | none => .error (.UnknownNodeMarker no)
  | other =>
      .ok ⟨no, lvl, .bullet, String.mk (splitAnchorC other).1,
        (splitAnchorC other).2.map String.mk, []⟩

/-- Lex one leveled line: require the `- ` marker, then the content. -/
def lexLine (no lvl : Nat) (cs : List Char) : Except ParseError LineRec :=
  match cs with
  | '-' :: ' ' :: rest => lexAfterMarker no lvl rest
  | _ => .error (.MissingBullet no)

/-- Lex all leveled lines. -/
def lexAll : List (Nat × Nat × List Char) → Except ParseError (List LineRec)
  | [] => .ok []
  | (no, lvl, cs) :: rest =>
      match lexLine no lvl cs with
      | .error e => .error e
      | .ok r =>
          match lexAll rest with
          | .error e => .error e
          | .ok out => .ok (r :: out)

/-- Build the sibling run at level `lvl` (each node followed by its subtree
at level `lvl + 1`), returning the forest and the unconsumed lines; stops
before the first line of a level below `lvl`.  `fuel` bounds the recursion
and is amply provisioned by the caller. -/
def parseSibs : Nat → Nat → List LineRec → Except ParseError (List Node × List LineRec)
  | 0, _, _ => .error .Internal
  | _ + 1, _, [] => .ok ([], [])
  | fuel + 1, lvl, r :: rs =>
      if r.lvl < lvl then .ok ([], r :: rs)
      else if lvl < r.lvl then .error (.MalformedIndentation r.lineNo)
      else
        match parseSibs fuel (lvl + 1) rs with
        | .error e => .error e
        | .ok (cs, rest) =>
            match parseSibs fuel lvl rest with
            | .error e => .error e
            | .ok (sibs, rest2) =>
                .ok (.mk r.kind r.text r.anchor r.refs (ofList cs) :: sibs, rest2)

/-- Final stage of parsing: build the tree from the lexed records and
require a single root with no stray lines. -/
def buildFrom (recs : List LineRec) : Except ParseError Node :=
  match parseSibs (2 * recs.length + 1) 0 recs with
  | .error e => .error e
  | .ok (forest, rest2) =>
      match forest, rest2 with
      | [t], [] => .ok t
      | _, _ => .error .MultipleRoots

/-- Lex the leveled lines, then build the tree. -/
def afterLevels (leveled : List (Nat × Nat × List Char)) : Except ParseError Node :=
  match lexAll leveled with
  | .error e => .error e
  | .ok recs => buildFrom recs

/-- `Node.from_markdown`: parse a markdown document into a single tree. -/
def from_markdown (s : String) : Except ParseError Node :=
  match preLines s with
  | [] => .error .EmptyDocument
  | (no0, c0) :: rest =>
      match checkLevels (countIndentC c0) 0 ((no0, c0) :: rest) with
      | .error e => .error e
      | .ok (leveled, _) => afterLevels leveled

mutual
/-- Explicit statuses replaced by effective statuses throughout the tree
(what the round trip reconstructs, given that the serializer persists the
derived overlays). -/
def mapEffN : Node → Node
  | .mk k t a r cs => .mk (effKind (.mk k t a r cs)) t a r (mapEffF cs)

/-- Explicit statuses replaced by effective statuses, forest version. -/
def mapEffF : Forest → Forest
  | .nil => .nil
  | .cons n f => .cons (mapEffN n) (mapEffF f)
end

/-- Parser sanity check: the shape of the notebook's cell-3 document — a
uniformly extra-indented tree — parses, with the first line's indentation
taken as the root level. -/
theorem from_markdown_cell3_shape :
    from_markdown "        - [ ] Task 1\n            - [ ] Task 2" =
      .ok (branch (.task .Open) "Task 1" [leaf (.task .Open) "Task 2"]) := rfl

/-- Parser/serializer sanity check: re-parsing the serialized cell-1 tree
yields the tree with every status replaced by its effective status. -/
theorem from_markdown_cell1_round :
    from_markdown (to_markdown cell1Task1) = .ok (mapEffN cell1Task1) := rfl

/-! ## Validity of trees for the round-trip (spec section 3: single logical
line of text, unique usable anchors; plus the codec's own grammar limits:
a bullet's text must not itself look like a status token, and text must
not end in something the lexer would take for an anchor unless the node
really has one). -/

/-- Text fit for one markdown line. -/
def textOkB (t : String) : Bool := t.data.all (fun c => c != '\n')

/-- A usable anchor word: nonempty, no spaces, carets or newlines. -/
def validAnchorWord (w : String) : Bool :=
  !w.data.isEmpty && w.data.all (fun c => c != ' ' && c != '^' && c != '\n')

mutual
/-- Serializable-and-reparsable node: newline-free text; a bullet's
rendered tail must not start with a token shape; a Decision carries no
anchor and at most one valid reference word; any other variant carries no
references and, when it has no anchor, text without a trailing anchor
pattern. -/
def validN : Node → Bool
  | .mk k t a r cs =>
      textOkB t &&
      (match k with
       | .bullet => !startsTokenShape (t.data ++ anchorPart a)
       | _ => true) &&
      (match k with
       | .decision =>
           decide (a = none) &&
           (match r with
            | [] => !(splitAnchorC t.data).2.isSome
            | [x] => validAnchorWord x
            | _ => false)
       | _ =>
           r.isEmpty &&
           (match a with
            | none => !(splitAnchorC t.data).2.isSome
            | some w => validAnchorWord w)) &&
      validF cs

/-- All nodes of the forest are valid. -/
def validF : Forest → Bool
  | .nil => true
  | .cons n f => validN n && validF f
end

mutual
/-- Number of nodes in a subtree. -/
def sizeN : Node → Nat
  | .mk _ _ _ _ cs => 1 + sizeF cs

/-- Number of nodes in a forest. -/
def sizeF : Forest → Nat
  | .nil => 0
  | .cons n f => sizeN n + sizeF f
end

mutual
/-- Level of the last serialized line of a subtree rooted at `lvl`. -/
def lastLvlN (lvl : Nat) : Node → Nat
  | .mk _ _ _ _ cs => lastLvlF (lvl + 1) lvl cs

/-- Level of the last serialized line of a forest at `lvl` (`prev` when the
forest is empty). -/
def lastLvlF (lvl prev : Nat) : Forest → Nat
  | .nil => prev
  | .cons n f => lastLvlF lvl (lastLvlN lvl n) f
end

mutual
/-- Expected indentation-pass output for a subtree: line number, level,
content after the indentation. -/
def levOutN (i lvl : Nat) : Node → List (Nat × Nat × List Char)
  | .mk k t a r cs =>
      (i, lvl, '-' :: ' ' :: afterMarker (.mk k t a r cs)) ::
        levOutF (i + 1) (lvl + 1) cs

/-- Expected indentation-pass output for a forest. -/
def levOutF (i lvl : Nat) : Forest → List (Nat × Nat × List Char)
  | .nil => []
  | .cons n f => levOutN i lvl n ++ levOutF (i + sizeN n) lvl f
end

mutual
/-- Expected lexer output for a subtree: one record per line, the node's
kind replaced by its effective kind. -/
def recN (i lvl : Nat) : Node → List LineRec
  | .mk k t a r cs =>
      ⟨i, lvl, effKind (.mk k t a r cs), t, a, r⟩ :: recF (i + 1) (lvl + 1) cs

/-- Expected lexer output for a forest. -/
def recF (i lvl : Nat) : Forest → List LineRec
  | .nil => []
  | .cons n f => recN i lvl n ++ recF (i + sizeN n) lvl f
end

/-- The status token character of the first line of a document, recovered
through the lexer (none for a bullet line or an unparsable document). -/
def firstLineToken (s : String) : Option Char :=
  match preLines s with
  | [] => none
  | (no0, c0) :: _ =>
      match lexLine no0 0 (c0.drop (countIndentC c0)) with
      | .ok r => statusChar r.kind
      | .error _ => none

/-! ## Concrete counterexamples and sanity facts for C1, C8, C10. -/

/-- A valid two-node tree: an `Open` task with an `Open` task child. -/
def c1Pair : Node := branch (.task .Open) "a" [leaf (.task .Open) "b"]

/-- C1, counterexample.  The round-trip law fails on the code: serializing
persists the derived Blocked overlay, so re-parsing the valid tree
`c1Pair` (root explicitly `Open`, blocked only derivately by its `Open`
child) yields a root whose explicit status is `Blocked`, not `Open`. -/
theorem c1_round_trip_counterexample :
    validN c1Pair = true ∧
    from_markdown (to_markdown c1Pair) =
      .ok (branch (.task .Blocked) "a" [leaf (.task .Open) "b"]) ∧
    (branch (.task .Blocked) "a" [leaf (.task .Open) "b"]).kind ≠ c1Pair.kind :=
  ⟨by decide, rfl, by decide⟩

/-- C10, counterexample.  A document whose every line carries the same
non-zero common leading indentation (four spaces) on which
`from_markdown` nevertheless fails: after stripping the common
indentation the second line still jumps by two levels. -/
theorem c10_indent_counterexample :
    ((splitLines ("    - [ ] a\n            - [ ] b").data).all
      (fun l => decide (l.take 4 = spacesC 4))) = true ∧
    from_markdown "    - [ ] a\n            - [ ] b" =
      .error (.MalformedIndentation 2) :=
  ⟨by decide, rfl⟩

/-! ## Low-level helper lemmas for the round-trip proof. -/

theorem takeWhile_append_all (p : Char → Bool) (l1 l2 : List Char)
    (h : ∀ c ∈ l1, p c = true) :
    (l1 ++ l2).takeWhile p = l1 ++ l2.takeWhile p := by
  induction l1 with
  | nil => simp
  | cons c l1 ih =>
      have hc : p c = true := h c (List.mem_cons_self _ _)
      simp only [List.cons_append, List.takeWhile_cons, hc, if_true]
      rw [ih (fun d hd => h d (List.mem_cons_of_mem _ hd))]

theorem countIndent_spaces_dash (m : Nat) (l : List Char) :
    countIndentC (spacesC m ++ '-' :: l) = m := by
  unfold countIndentC spacesC
  rw [takeWhile_append_all _ _ _ (by
    intro c hc
    have := List.eq_of_mem_replicate hc
    simp [this])]
  simp [List.takeWhile_cons]

theorem drop_spaces_dash (m : Nat) (l : List Char) :
    (spacesC m ++ '-' :: l).drop m = '-' :: l := by
  have h2 := List.drop_left (spacesC m) ('-' :: l)
  rwa [show (spacesC m).length = m from by simp [spacesC]] at h2

theorem numberFrom_append (i : Nat) (l1 l2 : List (List Char)) :
    numberFrom i (l1 ++ l2) = numberFrom i l1 ++ numberFrom (i + l1.length) l2 := by
  induction l1 generalizing i with
  | nil => simp [numberFrom]
  | cons l l1 ih =>
      calc numberFrom i ((l :: l1) ++ l2)
          = (i, l) :: numberFrom (i + 1) (l1 ++ l2) := rfl
        _ = (i, l) :: (numberFrom (i + 1) l1 ++ numberFrom (i + 1 + l1.length) l2) := by
            rw [ih (i + 1)]
        _ = numberFrom i (l :: l1) ++ numberFrom (i + (l :: l1).length) l2 := by
            rw [show i + 1 + l1.length = i + (l :: l1).length from by simp; omega]
            rfl

theorem splitAnchorGo_snd_none (cs w rem : List Char)
    (h : (splitAnchorGo cs w rem).2 = none) : splitAnchorGo cs w rem = (cs, none) := by
  unfold splitAnchorGo at h ⊢
  split at h
  · by_cases hw : w.isEmpty <;> simp_all
  · rfl

theorem splitAnchorC_of_snd_none (cs : List Char)
    (h : (splitAnchorC cs).2 = none) : splitAnchorC cs = (cs, none) := by
  unfold splitAnchorC at h ⊢
  exact splitAnchorGo_snd_none _ _ _ h

theorem splitAnchorC_append_anchor (t w : List Char) (hw : w ≠ [])
    (hok : ∀ c ∈ w, c ≠ ' ' ∧ c ≠ '^') :
    splitAnchorC (t ++ ' ' :: '^' :: w) = (t, some w) := by
  have hrev : (t ++ ' ' :: '^' :: w).reverse = w.reverse ++ '^' :: ' ' :: t.reverse := by
    simp
  have hall : ∀ c ∈ w.reverse, (fun c => c != ' ' && c != '^') c = true := by
    intro c hc
    have := hok c (List.mem_reverse.mp hc)
    simp [this.1, this.2]
  have hstop : List.takeWhile (fun c => c != ' ' && c != '^') ('^' :: ' ' :: t.reverse)
      = [] := by
    simp [List.takeWhile_cons]
  have htw : (t ++ ' ' :: '^' :: w).reverse.takeWhile (fun c => c != ' ' && c != '^')
      = w.reverse := by
    rw [hrev, takeWhile_append_all _ _ _ hall, hstop, List.append_nil]
  have hdrop : (t ++ ' ' :: '^' :: w).reverse.drop w.reverse.length
      = '^' :: ' ' :: t.reverse := by
    rw [hrev, List.drop_left]
  have hwem : w.reverse.isEmpty = false := by
    cases hwr : w.reverse with
    | nil => exact absurd (by simpa using congrArg List.reverse hwr) hw
    | cons a l => rfl
  unfold splitAnchorC
  rw [htw, hdrop]
  unfold splitAnchorGo
  simp [hwem]

theorem splitLinesAux_no_newline (l acc : List Char) (h : '\n' ∉ l) :
    splitLinesAux l acc = [acc.reverse ++ l] := by
  induction l generalizing acc with
  | nil => simp [splitLinesAux]
  | cons c cs ih =>
      have hc : c ≠ '\n' := fun hc => h (hc ▸ List.mem_cons_self _ _)
      have hcs : '\n' ∉ cs := fun hm => h (List.mem_cons_of_mem _ hm)
      simp only [splitLinesAux, if_neg hc]
      rw [ih _ hcs]
      simp

theorem splitLinesAux_with_newline (l rest acc : List Char) (h : '\n' ∉ l) :
    splitLinesAux (l ++ '\n' :: rest) acc =
      (acc.reverse ++ l) :: splitLinesAux rest [] := by
  induction l generalizing acc with
  | nil => simp [splitLinesAux]
  | cons c cs ih =>
      have hc : c ≠ '\n' := fun hc => h (hc ▸ List.mem_cons_self _ _)
      have hcs : '\n' ∉ cs := fun hm => h (List.mem_cons_of_mem _ hm)
      calc splitLinesAux ((c :: cs) ++ '\n' :: rest) acc
          = splitLinesAux (cs ++ '\n' :: rest) (c :: acc) := by
            simp only [List.cons_append, splitLinesAux, if_neg hc]
            rfl
        _ = ((c :: acc).reverse ++ cs) :: splitLinesAux rest [] := ih (c :: acc) hcs
        _ = (acc.reverse ++ c :: cs) :: splitLinesAux rest [] := by simp

theorem splitLines_joinLines (ls : List (List Char)) (hne : ls ≠ [])
    (h : ∀ l ∈ ls, '\n' ∉ l) : splitLines (joinLines ls) = ls := by
  induction ls with
  | nil => exact absurd rfl hne
  | cons l ls ih =>
      cases ls with
      | nil =>
          unfold splitLines joinLines
          simpa using splitLinesAux_no_newline l [] (h l (List.mem_cons_self _ _))
      | cons l2 ls2 =>
          unfold splitLines joinLines
          rw [splitLinesAux_with_newline l (joinLines (l2 :: ls2)) []
            (h l (List.mem_cons_self _ _))]
          have h3 := ih (by simp) (fun x hx => h x (List.mem_cons_of_mem _ hx))
          unfold splitLines at h3
          simp [h3]

theorem filter_nonblank_numberFrom (i : Nat) (ls : List (List Char))
    (h : ∀ l ∈ ls, isBlankLine l = false) :
    (numberFrom i ls).filter (fun p => !isBlankLine p.2) = numberFrom i ls := by
  induction ls generalizing i with
  | nil => simp [numberFrom]
  | cons l ls ih =>
      simp only [numberFrom, List.filter_cons]
      rw [h l (List.mem_cons_self _ _)]
      simp only [Bool.not_false, if_true]
      rw [ih (i + 1) (fun x hx => h x (List.mem_cons_of_mem _ hx))]

/-! ## Serialized lines: newline-free and non-blank. -/

theorem validAnchorWord_no_newline (w : String) (h : validAnchorWord w = true) :
    '\n' ∉ w.data := by
  intro hm
  simp only [validAnchorWord, Bool.and_eq_true, List.all_eq_true] at h
  have := h.2 '\n' hm
  simp at this

theorem textOkB_no_newline (t : String) (h : textOkB t = true) : '\n' ∉ t.data := by
  intro hm
  simp only [textOkB, List.all_eq_true] at h
  have := h '\n' hm
  simp at this

theorem newline_not_mem_tokenPart (k : NodeKind) : '\n' ∉ tokenPart k := by
  cases k with
  | task s => cases s <;> decide
  | question s => cases s <;> decide
  | bullet => decide
  | artefact => decide
  | alternative => decide
  | decision => decide

theorem newline_not_mem_anchorPart (a : Option String)
    (ha : ∀ w, a = some w → validAnchorWord w = true) : '\n' ∉ anchorPart a := by
  cases a with
  | none => simp [anchorPart]
  | some w =>
      intro hm
      simp only [anchorPart, List.mem_cons] at hm
      rcases hm with h | h | h
      · exact absurd h (by decide)
      · exact absurd h (by decide)
      · exact validAnchorWord_no_newline w (ha w rfl) h

theorem newline_not_mem_afterMarker (k : NodeKind) (t : String) (a : Option String)
    (r : List String) (cs : Forest)
    (hv : validN (.mk k t a r cs) = true) :
    '\n' ∉ afterMarker (.mk k t a r cs) := by
  simp only [validN, Bool.and_eq_true] at hv
  obtain ⟨⟨⟨h1, _h2⟩, h3⟩, _h4⟩ := hv
  intro hmem
  unfold afterMarker at hmem
  rcases List.mem_append.mp hmem with hmem | hmem
  · rcases List.mem_append.mp hmem with hmem | hmem
    · exact newline_not_mem_tokenPart _ hmem
    · exact textOkB_no_newline t h1 hmem
  · simp only [Node.kind, Node.refs, Node.anchor] at hmem
    cases k with
    | decision =>
        cases r with
        | nil => simp [refsPart] at hmem
        | cons x rest =>
            simp only [refsPart, List.mem_cons] at hmem
            rcases hmem with h | h | h
            · exact absurd h (by decide)
            · exact absurd h (by decide)
            · cases rest with
              | nil =>
                  have h3b := ((Bool.and_eq_true _ _).mp h3).2
                  exact validAnchorWord_no_newline x h3b h
              | cons y ys =>
                  have h3b := ((Bool.and_eq_true _ _).mp h3).2
                  simp at h3b
    | task s =>
        exact newline_not_mem_anchorPart a
          (fun w hw => by subst hw; exact ((Bool.and_eq_true _ _).mp h3).2) hmem
    | bullet =>
        exact newline_not_mem_anchorPart a
          (fun w hw => by subst hw; exact ((Bool.and_eq_true _ _).mp h3).2) hmem
    | question s =>
        exact newline_not_mem_anchorPart a
          (fun w hw => by subst hw; exact ((Bool.and_eq_true _ _).mp h3).2) hmem
    | artefact =>
        exact newline_not_mem_anchorPart a
          (fun w hw => by subst hw; exact ((Bool.and_eq_true _ _).mp h3).2) hmem
    | alternative =>
        exact newline_not_mem_anchorPart a
          (fun w hw => by subst hw; exact ((Bool.and_eq_true _ _).mp h3).2) hmem

theorem newline_not_mem_lineOf (lvl : Nat) (k : NodeKind) (t : String)
    (a : Option String) (r : List String) (cs : Forest)
    (hv : validN (.mk k t a r cs) = true) :
    '\n' ∉ lineOf lvl (.mk k t a r cs) := by
  intro hm
  unfold lineOf at hm
  rcases List.mem_append.mp hm with hm | hm
  · have := List.eq_of_mem_replicate hm
    exact absurd this (by decide)
  · simp only [List.mem_cons] at hm
    rcases hm with h | h | h
    · exact absurd h (by decide)
    · exact absurd h (by decide)
    · exact newline_not_mem_afterMarker k t a r cs hv h

theorem lineOf_not_blank (lvl : Nat) (n : Node) :
    isBlankLine (lineOf lvl n) = false := by
  obtain ⟨k, t, a, r, cs⟩ := n
  unfold lineOf isBlankLine
  simp [List.all_append, spacesC]

/-- All serialized lines of a valid subtree are newline-free and non-blank. -/
theorem lines_facts :
    (∀ n, validN n = true → ∀ lvl l, l ∈ linesN lvl n →
      '\n' ∉ l ∧ isBlankLine l = false) ∧
    (∀ f, validF f = true → ∀ lvl l, l ∈ linesF lvl f →
      '\n' ∉ l ∧ isBlankLine l = false) := by
  refine node_forest_induction
    (fun n => validN n = true → ∀ lvl l, l ∈ linesN lvl n →
      '\n' ∉ l ∧ isBlankLine l = false)
    (fun f => validF f = true → ∀ lvl l, l ∈ linesF lvl f →
      '\n' ∉ l ∧ isBlankLine l = false) ?_ ?_ ?_
  · intro k t a r cs ih hv lvl l hl
    have hvf : validF cs = true := by
      simp only [validN, Bool.and_eq_true] at hv
      exact hv.2
    simp only [linesN, List.mem_cons] at hl
    rcases hl with rfl | hl
    · exact ⟨newline_not_mem_lineOf lvl k t a r cs hv, lineOf_not_blank lvl _⟩
    · exact ih hvf (lvl + 1) l hl
  · intro _ _ l hl
    simp [linesF] at hl
  · intro n f ihn ihf hv lvl l hl
    simp only [validF, Bool.and_eq_true] at hv
    simp only [linesF] at hl
    rcases List.mem_append.mp hl with h | h
    · exact ihn hv.1 lvl l h
    · exact ihf hv.2 lvl l h

/-! ## Indentation-pass correctness on serialized output. -/

theorem lastLvl_ge :
    (∀ n lvl, lvl ≤ lastLvlN lvl n) ∧
    (∀ f lvl prev, min prev lvl ≤ lastLvlF lvl prev f) := by
  refine node_forest_induction
    (fun n => ∀ lvl, lvl ≤ lastLvlN lvl n)
    (fun f => ∀ lvl prev, min prev lvl ≤ lastLvlF lvl prev f) ?_ ?_ ?_
  · intro k t a r cs ih lvl
    have h2 := ih (lvl + 1) lvl
    simp only [lastLvlN]
    omega
  · intro lvl prev
    simp only [lastLvlF]
    omega
  · intro n f ihn ihf lvl prev
    have h1 := ihn lvl
    have h2 := ihf lvl (lastLvlN lvl n)
    simp only [lastLvlF]
    omega

/-- The indentation pass on the serialized lines of a valid tree succeeds,
producing the expected leveled lines and threading the last level. -/
theorem checkLevels_flat :
    (∀ n, validN n = true → ∀ lvl prev i rest, lvl ≤ prev + 1 →
      checkLevels 0 prev (numberFrom i (linesN lvl n) ++ rest) =
        (match checkLevels 0 (lastLvlN lvl n) rest with
         | .error e => .error e
         | .ok (out, p2) => .ok (levOutN i lvl n ++ out, p2))) ∧
    (∀ f, validF f = true → ∀ lvl prev i rest, lvl ≤ prev + 1 →
      checkLevels 0 prev (numberFrom i (linesF lvl f) ++ rest) =
        (match checkLevels 0 (lastLvlF lvl prev f) rest with
         | .error e => .error e
         | .ok (out, p2) => .ok (levOutF i lvl f ++ out, p2))) := by
  refine node_forest_induction
    (fun n => validN n = true → ∀ lvl prev i rest, lvl ≤ prev + 1 →
      checkLevels 0 prev (numberFrom i (linesN lvl n) ++ rest) =
        (match checkLevels 0 (lastLvlN lvl n) rest with
         | .error e => .error e
         | .ok (out, p2) => .ok (levOutN i lvl n ++ out, p2)))
    (fun f => validF f = true → ∀ lvl prev i rest, lvl ≤ prev + 1 →
      checkLevels 0 prev (numberFrom i (linesF lvl f) ++ rest) =
        (match checkLevels 0 (lastLvlF lvl prev f) rest with
         | .error e => .error e
         | .ok (out, p2) => .ok (levOutF i lvl f ++ out, p2))) ?_ ?_ ?_
  · intro k t a r cs ih hv lvl prev i rest hle
    have hvf : validF cs = true := by
      simp only [validN, Bool.and_eq_true] at hv
      exact hv.2
    have hstep : checkLevels 0 prev (numberFrom i (linesN lvl (.mk k t a r cs)) ++ rest) =
        checkLevels 0 prev ((i, lineOf lvl (.mk k t a r cs)) ::
          (numberFrom (i + 1) (linesF (lvl + 1) cs) ++ rest)) := rfl
    rw [hstep]
    have hci : countIndentC (lineOf lvl (.mk k t a r cs)) = 4 * lvl :=
      countIndent_spaces_dash (4 * lvl) _
    have hdr : (lineOf lvl (.mk k t a r cs)).drop (4 * lvl)
        = '-' :: ' ' :: afterMarker (.mk k t a r cs) :=
      drop_spaces_dash (4 * lvl) _
    rw [show checkLevels 0 prev ((i, lineOf lvl (.mk k t a r cs)) ::
          (numberFrom (i + 1) (linesF (lvl + 1) cs) ++ rest)) =
        (if countIndentC (lineOf lvl (.mk k t a r cs)) < 0 then
          .error (.MalformedIndentation i)
        else if (countIndentC (lineOf lvl (.mk k t a r cs)) - 0) % 4 ≠ 0 then
          .error (.MalformedIndentation i)
        else if prev + 1 < (countIndentC (lineOf lvl (.mk k t a r cs)) - 0) / 4 then
          .error (.MalformedIndentation i)
        else
          match checkLevels 0 ((countIndentC (lineOf lvl (.mk k t a r cs)) - 0) / 4)
              (numberFrom (i + 1) (linesF (lvl + 1) cs) ++ rest) with
          | .error e => .error e
          | .ok (out, p2) =>
              .ok ((i, (countIndentC (lineOf lvl (.mk k t a r cs)) - 0) / 4,
                (lineOf lvl (.mk k t a r cs)).drop
                  (countIndentC (lineOf lvl (.mk k t a r cs)))) :: out, p2)) from rfl]
    rw [hci]
    rw [if_neg (by omega : ¬ (4 * lvl < 0))]
    rw [if_neg (by omega : ¬ ((4 * lvl - 0) % 4 ≠ 0))]
    rw [if_neg (by omega : ¬ (prev + 1 < (4 * lvl - 0) / 4))]
    rw [show (4 * lvl - 0) / 4 = lvl from by omega]
    rw [ih hvf (lvl + 1) lvl (i + 1) rest (by omega)]
    rw [hdr]
    have hlast : lastLvlN lvl (Node.mk k t a r cs) = lastLvlF (lvl + 1) lvl cs := rfl
    rw [← hlast]
    cases h2 : checkLevels 0 (lastLvlN lvl (Node.mk k t a r cs)) rest with
    | error e => rfl
    | ok pr =>
        obtain ⟨out, p2⟩ := pr
        show Except.ok ((i, lvl, '-' :: ' ' :: afterMarker (.mk k t a r cs)) ::
          (levOutF (i + 1) (lvl + 1) cs ++ out), p2) = _
        simp [levOutN]
  · intro _ lvl prev i rest _
    simp only [linesF, numberFrom, List.nil_append, lastLvlF, levOutF]
    cases h2 : checkLevels 0 prev rest with
    | error e => rfl
    | ok pr => rfl
  · intro n f ihn ihf hv lvl prev i rest hle
    simp only [validF, Bool.and_eq_true] at hv
    have hlines : linesF lvl (.cons n f) = linesN lvl n ++ linesF lvl f := rfl
    rw [hlines, numberFrom_append, List.append_assoc]
    have hlen : (linesN lvl n).length = sizeN n := by
      clear ihn ihf hle hlines
      revert lvl
      refine (node_forest_induction
        (fun n => ∀ lvl, (linesN lvl n).length = sizeN n)
        (fun f => ∀ lvl, (linesF lvl f).length = sizeF f) ?_ ?_ ?_).1 n
      · intro k t a r cs ih lvl
        simp only [linesN, List.length_cons, sizeN, ih]
        omega
      · intro lvl
        simp [linesF, sizeF]
      · intro n2 f2 ihn2 ihf2 lvl
        simp [linesF, sizeF, List.length_append, ihn2, ihf2]
    rw [hlen]
    rw [ihn hv.1 lvl prev i (numberFrom (i + sizeN n) (linesF lvl f) ++ rest) hle]
    have hge := lastLvl_ge.1 n lvl
    rw [ihf hv.2 lvl (lastLvlN lvl n) (i + sizeN n) rest (by omega)]
    have hlast2 : lastLvlF lvl prev (.cons n f) = lastLvlF lvl (lastLvlN lvl n) f := rfl
    rw [hlast2]
    cases h2 : checkLevels 0 (lastLvlF lvl (lastLvlN lvl n) f) rest with
    | error e => rfl
    | ok pr =>
        obtain ⟨out, p2⟩ := pr
        show Except.ok (levOutN i lvl n ++ (levOutF (i + sizeN n) lvl f ++ out), p2) = _
        simp [levOutF]

/-! ## Lexer correctness on serialized lines. -/

theorem splitAnchorC_text_none (t : String)
    (h : (!(splitAnchorC t.data).2.isSome) = true) :
    splitAnchorC t.data = (t.data, none) := by
  apply splitAnchorC_of_snd_none
  cases hs : (splitAnchorC t.data).2 with
  | none => rfl
  | some w => rw [hs] at h; simp at h

theorem splitAnchorC_text_anchor (t w : String) (hw : validAnchorWord w = true) :
    splitAnchorC (t.data ++ ' ' :: '^' :: w.data) = (t.data, some w.data) := by
  simp only [validAnchorWord, Bool.and_eq_true, List.all_eq_true] at hw
  apply splitAnchorC_append_anchor
  · intro h0
    rw [h0] at hw
    simp at hw
  · intro c hc
    have hcc := hw.2 c hc
    simp only [Bool.and_eq_true, bne_iff_ne, ne_eq] at hcc
    exact ⟨hcc.1.1, hcc.1.2⟩

theorem lexAfterMarker_token (no lvl : Nat) (k : NodeKind) (c : Char) (txt : List Char)
    (hc : statusChar k = some c) :
    lexAfterMarker no lvl ('[' :: c :: ']' :: ' ' :: txt) =
      (if k = .decision then
        Except.ok ⟨no, lvl, k, String.mk (splitAnchorC txt).1, none,
          ((splitAnchorC txt).2.map String.mk).toList⟩
      else
        Except.ok ⟨no, lvl, k, String.mk (splitAnchorC txt).1,
          (splitAnchorC txt).2.map String.mk, []⟩) := by
  have htk := tokenKind_statusChar k c hc
  simp only [lexAfterMarker, htk]

theorem lexAfterMarker_not_token (no lvl : Nat) (rest : List Char)
    (h : startsTokenShape rest = false) :
    lexAfterMarker no lvl rest =
      .ok ⟨no, lvl, .bullet, String.mk (splitAnchorC rest).1,
        (splitAnchorC rest).2.map String.mk, []⟩ := by
  unfold lexAfterMarker
  split
  · next c txt => simp [startsTokenShape] at h
  · rfl

/-- A non-decision token line lexes back to the node's fields. -/
theorem lexAfterMarker_token_plain (no lvl : Nat) (k2 : NodeKind) (c : Char)
    (t : String) (a : Option String) (r : List String)
    (hc : statusChar k2 = some c) (hkd : k2 ≠ .decision)
    (hr : r.isEmpty = true)
    (hta : match a with
           | none => (!(splitAnchorC t.data).2.isSome) = true
           | some w => validAnchorWord w = true) :
    lexAfterMarker no lvl ('[' :: c :: ']' :: ' ' :: (t.data ++ anchorPart a)) =
      .ok ⟨no, lvl, k2, t, a, r⟩ := by
  rw [lexAfterMarker_token no lvl k2 c _ hc, if_neg hkd]
  have hrnil : r = [] := by simpa [List.isEmpty_iff] using hr
  subst hrnil
  cases a with
  | none =>
      simp only [anchorPart, List.append_nil]
      rw [splitAnchorC_text_none t hta]
      rfl
  | some w =>
      simp only [anchorPart]
      rw [splitAnchorC_text_anchor t w hta]
      rfl

/-- A bullet line lexes back to the node's fields. -/
theorem lexAfterMarker_bullet_plain (no lvl : Nat) (t : String) (a : Option String)
    (r : List String)
    (hsh : startsTokenShape (t.data ++ anchorPart a) = false)
    (hr : r.isEmpty = true)
    (hta : match a with
           | none => (!(splitAnchorC t.data).2.isSome) = true
           | some w => validAnchorWord w = true) :
    lexAfterMarker no lvl (t.data ++ anchorPart a) =
      .ok ⟨no, lvl, .bullet, t, a, r⟩ := by
  rw [lexAfterMarker_not_token no lvl _ hsh]
  have hrnil : r = [] := by simpa [List.isEmpty_iff] using hr
  subst hrnil
  cases a with
  | none =>
      simp only [anchorPart, List.append_nil]
      rw [splitAnchorC_text_none t hta]
      rfl
  | some w =>
      simp only [anchorPart]
      rw [splitAnchorC_text_anchor t w hta]
      rfl

/-- Every variant other than a decision serializes to a non-decision
effective kind. -/
theorem effKind_ne_decision (k : NodeKind) (t : String) (a : Option String)
    (r : List String) (cs : Forest) (hk : k ≠ .decision) :
    effKind (.mk k t a r cs) ≠ .decision := by
  cases k with
  | task s => simp [effKind]
  | question s => simp [effKind]
  | bullet => simp [effKind]
  | artefact => simp [effKind]
  | alternative => simp [effKind]
  | decision => exact absurd rfl hk

/-- Lexing the serialized line of a valid node recovers the node's
effective kind, text, anchor and references. -/
theorem lexLine_flat (no lvl : Nat) (k : NodeKind) (t : String) (a : Option String)
    (r : List String) (cs : Forest) (hv : validN (.mk k t a r cs) = true) :
    lexLine no lvl ('-' :: ' ' :: afterMarker (.mk k t a r cs)) =
      .ok ⟨no, lvl, effKind (.mk k t a r cs), t, a, r⟩ := by
  have hv2 := hv
  simp only [validN, Bool.and_eq_true] at hv2
  obtain ⟨⟨⟨_h1, h2⟩, h3⟩, _h4⟩ := hv2
  show lexAfterMarker no lvl (afterMarker (.mk k t a r cs)) = _
  cases k with
  | bullet =>
      have hAM : afterMarker (.mk .bullet t a r cs) = t.data ++ anchorPart a := rfl
      rw [hAM]
      have hsh : startsTokenShape (t.data ++ anchorPart a) = false := by
        simpa using h2
      exact lexAfterMarker_bullet_plain no lvl t a r hsh
        ((Bool.and_eq_true _ _).mp h3).1
        (by
          cases a with
          | none => exact ((Bool.and_eq_true _ _).mp h3).2
          | some w => exact ((Bool.and_eq_true _ _).mp h3).2)
  | decision =>
      have ha : a = none := by
        have := ((Bool.and_eq_true _ _).mp h3).1
        simpa using this
      subst ha
      have h3b := ((Bool.and_eq_true _ _).mp h3).2
      have hAM : afterMarker (.mk .decision t none r cs) =
          '[' :: '$' :: ']' :: ' ' :: (t.data ++ refsPart r) := rfl
      rw [hAM]
      cases r with
      | nil =>
          simp only [refsPart, List.append_nil]
          rw [lexAfterMarker_token no lvl .decision '$' t.data rfl, if_pos rfl]
          rw [splitAnchorC_text_none t h3b]
          rfl
      | cons x rest =>
          cases rest with
          | nil =>
              simp only [refsPart]
              rw [lexAfterMarker_token no lvl .decision '$' _ rfl, if_pos rfl]
              rw [splitAnchorC_text_anchor t x h3b]
              rfl
          | cons y ys => simp at h3b
  | task s =>
      obtain ⟨c, hc⟩ : ∃ c, statusChar (effKind (.mk (.task s) t a r cs)) = some c := by
        show ∃ c, statusChar (.task (if effBlockedB (.mk (.task s) t a r cs)
          then .Blocked else s)) = some c
        cases (if effBlockedB (.mk (.task s) t a r cs) then TaskStatus.Blocked else s) <;>
          exact ⟨_, rfl⟩
      have hAM : afterMarker (.mk (.task s) t a r cs) =
          '[' :: c :: ']' :: ' ' :: (t.data ++ anchorPart a) := by
        simp only [afterMarker, tokenPart, hc, Node.kind, Node.text, Node.anchor]
        rfl
      rw [hAM]
      exact lexAfterMarker_token_plain no lvl _ c t a r hc
        (effKind_ne_decision _ t a r cs (by simp))
        ((Bool.and_eq_true _ _).mp h3).1
        (by
          cases a with
          | none => exact ((Bool.and_eq_true _ _).mp h3).2
          | some w => exact ((Bool.and_eq_true _ _).mp h3).2)
  | question s =>
      obtain ⟨c, hc⟩ : ∃ c, statusChar (effKind (.mk (.question s) t a r cs)) = some c := by
        show ∃ c, statusChar (.question (if (decide (s = .Resolved) || hasSelDecF cs) = true
          then .Resolved else .Open)) = some c
        cases (if (decide (s = .Resolved) || hasSelDecF cs) = true
          then QuestionStatus.Resolved else .Open) <;> exact ⟨_, rfl⟩
      have hAM : afterMarker (.mk (.question s) t a r cs) =
          '[' :: c :: ']' :: ' ' :: (t.data ++ anchorPart a) := by
        simp only [afterMarker, tokenPart, hc, Node.kind, Node.text, Node.anchor]
        rfl
      rw [hAM]
      exact lexAfterMarker_token_plain no lvl _ c t a r hc
        (effKind_ne_decision _ t a r cs (by simp))
        ((Bool.and_eq_true _ _).mp h3).1
        (by
          cases a with
          | none => exact ((Bool.and_eq_true _ _).mp h3).2
          | some w => exact ((Bool.and_eq_true _ _).mp h3).2)
  | artefact =>
      have hAM : afterMarker (.mk .artefact t a r cs) =
          '[' :: 'a' :: ']' :: ' ' :: (t.data ++ anchorPart a) := rfl
      rw [hAM]
      exact lexAfterMarker_token_plain no lvl .artefact 'a' t a r rfl
        (by simp) ((Bool.and_eq_true _ _).mp h3).1
        (by
          cases a with
          | none => exact ((Bool.and_eq_true _ _).mp h3).2
          | some w => exact ((Bool.and_eq_true _ _).mp h3).2)
  | alternative =>
      have hAM : afterMarker (.mk .alternative t a r cs) =
          '[' :: 'A' :: ']' :: ' ' :: (t.data ++ anchorPart a) := rfl
      rw [hAM]
      exact lexAfterMarker_token_plain no lvl .alternative 'A' t a r rfl
        (by simp) ((Bool.and_eq_true _ _).mp h3).1
        (by
          cases a with
          | none => exact ((Bool.and_eq_true _ _).mp h3).2
          | some w => exact ((Bool.and_eq_true _ _).mp h3).2)

theorem lexAll_append (xs ys : List (Nat × Nat × List Char)) (rx ry : List LineRec)
    (hx : lexAll xs = .ok rx) (hy : lexAll ys = .ok ry) :
    lexAll (xs ++ ys) = .ok (rx ++ ry) := by
  induction xs generalizing rx with
  | nil =>
      simp only [lexAll] at hx
      cases hx
      simpa using hy
  | cons p xs ih =>
      obtain ⟨no, lvl, cs⟩ := p
      simp only [lexAll] at hx ⊢
      cases hl : lexLine no lvl cs with
      | error e => rw [hl] at hx; exact absurd hx (by simp)
      | ok rec =>
          rw [hl] at hx
          cases hrest : lexAll xs with
          | error e => rw [hrest] at hx; exact absurd hx (by simp)
          | ok out =>
              rw [hrest] at hx
              cases hx
              rw [show xs.append ys = xs ++ ys from rfl, ih out hrest]
              simp

/-- Lexing the leveled serialized lines of a valid tree yields the expected
records. -/
theorem lexAll_flat :
    (∀ n, validN n = true → ∀ i lvl, lexAll (levOutN i lvl n) = .ok (recN i lvl n)) ∧
    (∀ f, validF f = true → ∀ i lvl, lexAll (levOutF i lvl f) = .ok (recF i lvl f)) := by
  refine node_forest_induction
    (fun n => validN n = true → ∀ i lvl, lexAll (levOutN i lvl n) = .ok (recN i lvl n))
    (fun f => validF f = true → ∀ i lvl, lexAll (levOutF i lvl f) = .ok (recF i lvl f))
    ?_ ?_ ?_
  · intro k t a r cs ih hv i lvl
    have hvf : validF cs = true := by
      simp only [validN, Bool.and_eq_true] at hv
      exact hv.2
    simp only [levOutN, lexAll]
    rw [lexLine_flat i lvl k t a r cs hv]
    rw [ih hvf (i + 1) (lvl + 1)]
    rfl
  · intro _ i lvl
    simp [levOutF, lexAll, recF]
  · intro n f ihn ihf hv i lvl
    simp only [validF, Bool.and_eq_true] at hv
    simp only [levOutF, recF]
    exact lexAll_append _ _ _ _ (ihn hv.1 i lvl) (ihf hv.2 (i + sizeN n) lvl)

/-! ## Tree building from the lexed records. -/

theorem recF_length :
    (∀ n i lvl, (recN i lvl n).length = sizeN n) ∧
    (∀ f i lvl, (recF i lvl f).length = sizeF f) := by
  refine node_forest_induction
    (fun n => ∀ i lvl, (recN i lvl n).length = sizeN n)
    (fun f => ∀ i lvl, (recF i lvl f).length = sizeF f) ?_ ?_ ?_
  · intro k t a r cs ih i lvl
    simp only [recN, List.length_cons, sizeN, ih]
    omega
  · intro i lvl
    simp [recF, sizeF]
  · intro n f ihn ihf i lvl
    simp [recF, sizeF, List.length_append, ihn, ihf]

theorem ofList_toList : ∀ f : Forest, ofList f.toList = f := by
  refine (node_forest_induction (fun _ => True)
    (fun f => ofList f.toList = f) ?_ ?_ ?_).2
  · intro _ _ _ _ _ _
    trivial
  · simp [Forest.toList, ofList]
  · intro n f _ ihf
    simp [Forest.toList, ofList, ihf]

/-- Building the sibling run from the expected records of a forest
reconstructs the forest with effective statuses, leaving a lower-level
remainder untouched. -/
theorem parseSibs_flat : ∀ (N : Nat) (f : Forest), sizeF f = N →
    ∀ lvl i rest fuel, 2 * N + 1 ≤ fuel →
    (rest = [] ∨ ∃ r rs, rest = r :: rs ∧ r.lvl < lvl) →
    parseSibs fuel lvl (recF i lvl f ++ rest) = .ok ((mapEffF f).toList, rest) := by
  intro N
  induction N using Nat.strong_induction_on with
  | _ N ih =>
    intro f hN lvl i rest fuel hfuel hrest
    obtain ⟨fuel', rfl⟩ : ∃ f', fuel = f' + 1 := ⟨fuel - 1, by omega⟩
    cases f with
    | nil =>
        simp only [recF, List.nil_append, mapEffF, Forest.toList]
        rcases hrest with rfl | ⟨r, rs, rfl, hr⟩
        · rfl
        · simp only [parseSibs, if_pos hr]
    | cons n f2 =>
        obtain ⟨k, t, a, r0, cs⟩ := n
        have hNsz : N = 1 + sizeF cs + sizeF f2 := by
          rw [← hN]
          simp [sizeF, sizeN]
        have hshape : recF i lvl (.cons (.mk k t a r0 cs) f2) ++ rest =
            (⟨i, lvl, effKind (.mk k t a r0 cs), t, a, r0⟩ : LineRec) ::
              (recF (i + 1) (lvl + 1) cs ++
                (recF (i + sizeN (.mk k t a r0 cs)) lvl f2 ++ rest)) := by
          simp [recF, recN]
        rw [hshape]
        have hch := ih (sizeF cs) (by omega) cs rfl (lvl + 1) (i + 1)
          (recF (i + sizeN (.mk k t a r0 cs)) lvl f2 ++ rest) fuel' (by omega)
          (by
            cases f2 with
            | nil =>
                simp only [recF, List.nil_append]
                rcases hrest with rfl | ⟨r, rs, rfl, hr⟩
                · exact .inl rfl
                · exact .inr ⟨r, rs, rfl, by omega⟩
            | cons n2 f3 =>
                obtain ⟨k2, t2, a2, r2, cs2⟩ := n2
                refine .inr ⟨⟨i + sizeN (.mk k t a r0 cs), lvl, effKind (.mk k2 t2 a2 r2 cs2),
                  t2, a2, r2⟩,
                  recF (i + sizeN (.mk k t a r0 cs) + 1) (lvl + 1) cs2 ++
                    (recF (i + sizeN (.mk k t a r0 cs) + sizeN (.mk k2 t2 a2 r2 cs2)) lvl f3 ++
                      rest), ?_, Nat.lt_succ_self lvl⟩
                simp [recF, recN])
        have hsib := ih (sizeF f2) (by omega) f2 rfl lvl
          (i + sizeN (.mk k t a r0 cs)) rest fuel' (by omega) hrest
        show parseSibs (fuel' + 1) lvl _ = _
        simp only [parseSibs]
        rw [if_neg (by simp), if_neg (by simp)]
        rw [hch]
        show (match parseSibs fuel' lvl
            (recF (i + sizeN (.mk k t a r0 cs)) lvl f2 ++ rest) with
          | Except.error e => Except.error e
          | Except.ok (sibs, rest2) =>
              Except.ok (Node.mk (effKind (.mk k t a r0 cs)) t a r0
                (ofList (mapEffF cs).toList) :: sibs, rest2)) = _
        rw [hsib]
        show Except.ok (Node.mk (effKind (.mk k t a r0 cs)) t a r0
            (ofList (mapEffF cs).toList) :: (mapEffF f2).toList, rest) = _
        rw [ofList_toList]
        rfl

/-! ## Claim C1 (amended): the full round trip. -/

/-- C1, amended.  Parsing the serialization of any valid tree succeeds and
returns the tree with each node's explicit status replaced by its effective
status — structure, text, anchors, references and child order preserved
exactly.  The round trip is the identity precisely on trees without derived
overlays; on others the persisted overlay becomes the explicit status. -/
theorem c1_parse_serialize_eff (T : Node) (hv : validN T = true) :
    from_markdown (to_markdown T) = .ok (mapEffN T) := by
  obtain ⟨k0, t0, a0, r0, cs0⟩ := T
  set T := Node.mk k0 t0 a0 r0 cs0 with hT
  have hnl : ∀ l ∈ linesN 0 T, '\n' ∉ l := fun l hl => (lines_facts.1 T hv 0 l hl).1
  have hnb : ∀ l ∈ linesN 0 T, isBlankLine l = false :=
    fun l hl => (lines_facts.1 T hv 0 l hl).2
  have hsl : splitLines (to_markdown T).data = linesN 0 T := by
    rw [show (to_markdown T).data = joinLines (linesN 0 T) from rfl]
    exact splitLines_joinLines _ (by rw [hT]; simp [linesN]) hnl
  have hpre : preLines (to_markdown T) = numberFrom 1 (linesN 0 T) := by
    unfold preLines
    rw [hsl]
    exact filter_nonblank_numberFrom 1 _ hnb
  have hpre2 : preLines (to_markdown T) =
      (1, lineOf 0 T) :: numberFrom 2 (linesF 1 cs0) := by
    rw [hpre, hT]
    rfl
  have hbase : countIndentC (lineOf 0 T) = 0 := by
    have h2 := countIndent_spaces_dash 0 (' ' :: afterMarker T)
    simpa [spacesC] using h2
  have hchk := checkLevels_flat.1 T hv 0 0 1 [] (by omega)
  rw [List.append_nil] at hchk
  have hchk2 : checkLevels 0 0 (numberFrom 1 (linesN 0 T)) =
      .ok (levOutN 1 0 T, lastLvlN 0 T) := by
    rw [hchk]
    show (match checkLevels 0 (lastLvlN 0 T) [] with
      | Except.error e => Except.error e
      | Except.ok (out, p2) => Except.ok (levOutN 1 0 T ++ out, p2)) = _
    rw [show checkLevels 0 (lastLvlN 0 T) [] = .ok ([], lastLvlN 0 T) from rfl]
    simp
  have hlex := lexAll_flat.1 T hv 1 0
  have hrecl : (recN 1 0 T).length = sizeN T := recF_length.1 T 1 0
  have hps : parseSibs (2 * (recN 1 0 T).length + 1) 0 (recN 1 0 T) =
      .ok ([mapEffN T], []) := by
    have h2 := parseSibs_flat (sizeF (.cons T .nil)) (.cons T .nil) rfl 0 1 []
      (2 * (recN 1 0 T).length + 1)
      (by rw [hrecl]; simp only [sizeF]; omega) (.inl rfl)
    rw [show recF 1 0 (.cons T .nil) = recN 1 0 T from by simp [recF],
      List.append_nil] at h2
    rw [h2]
    rfl
  show from_markdown (to_markdown T) = _
  unfold from_markdown
  rw [hpre2]
  show (match checkLevels (countIndentC (lineOf 0 T)) 0
      ((1, lineOf 0 T) :: numberFrom 2 (linesF 1 cs0)) with
    | Except.error e => Except.error e
    | Except.ok (leveled, _) => afterLevels leveled) = _
  rw [hbase]
  rw [show (1, lineOf 0 T) :: numberFrom 2 (linesF 1 cs0) =
    numberFrom 1 (linesN 0 T) from by rw [hT]; rfl]
  rw [hchk2]
  show afterLevels (levOutN 1 0 T) = _
  unfold afterLevels
  rw [hlex]
  show buildFrom (recN 1 0 T) = _
  unfold buildFrom
  rw [hps]

/-- A valid tree exercising anchors, alternatives, a referencing decision
and a task. -/
def c1Witness : Node :=
  Node.mk (.question .Open) "Pick DB" (some "q1") []
    (ofList
      [ Node.mk .alternative "SQL" (some "alt0") [] .nil
      , Node.mk .alternative "NoSQL" (some "alt1") [] .nil
      , Node.mk .decision "Use NoSQL" none ["alt1"] .nil
      , leaf (.task .Open) "Decide" ])

/-- C1, witness for the amended round-trip law at a concrete valid tree. -/
theorem c1_parse_serialize_eff_witness :
    validN c1Witness = true ∧
    from_markdown (to_markdown c1Witness) = .ok (mapEffN c1Witness) :=
  ⟨by decide, c1_parse_serialize_eff c1Witness (by decide)⟩

/-- C2, amended.  The status token on a serialized node's line is the token
of its *effective* kind (hence `[!]` for a derivately blocked task), not
necessarily that of its explicit status. -/
theorem c2_token_is_effective (n : Node) (hv : validN n = true) :
    firstLineToken (to_markdown n) = statusChar (effKind n) := by
  obtain ⟨k0, t0, a0, r0, cs0⟩ := n
  set T := Node.mk k0 t0 a0 r0 cs0 with hT
  have hnl : ∀ l ∈ linesN 0 T, '\n' ∉ l := fun l hl => (lines_facts.1 T hv 0 l hl).1
  have hnb : ∀ l ∈ linesN 0 T, isBlankLine l = false :=
    fun l hl => (lines_facts.1 T hv 0 l hl).2
  have hsl : splitLines (to_markdown T).data = linesN 0 T := by
    rw [show (to_markdown T).data = joinLines (linesN 0 T) from rfl]
    exact splitLines_joinLines _ (by rw [hT]; simp [linesN]) hnl
  have hpre2 : preLines (to_markdown T) =
      (1, lineOf 0 T) :: numberFrom 2 (linesF 1 cs0) := by
    unfold preLines
    rw [hsl]
    rw [filter_nonblank_numberFrom 1 _ hnb]
    rw [hT]
    rfl
  have hbase : countIndentC (lineOf 0 T) = 0 := by
    have h2 := countIndent_spaces_dash 0 (' ' :: afterMarker T)
    simpa [spacesC] using h2
  unfold firstLineToken
  rw [hpre2]
  show (match lexLine 1 0 ((lineOf 0 T).drop (countIndentC (lineOf 0 T))) with
    | .ok r => statusChar r.kind
    | .error _ => none) = _
  rw [hbase, List.drop_zero]
  rw [show lineOf 0 T = '-' :: ' ' :: afterMarker T from by simp [lineOf, spacesC]]
  rw [lexLine_flat 1 0 k0 t0 a0 r0 cs0 hv]

/-- C2, witness: the serialized cell-1 root (explicitly `Open`, derivately
blocked) carries the `!` token. -/
theorem c2_token_is_effective_witness :
    validN cell1Task1 = true ∧
    firstLineToken (to_markdown cell1Task1) = some '!' ∧
    statusChar cell1Task1.kind = some ' ' :=
  ⟨by decide,
    (c2_token_is_effective cell1Task1 (by decide)).trans (by decide),
    by decide⟩

/-! ## Claim C10 (amended): common leading indentation is immaterial. -/

/-- The document with `k` extra spaces of indentation on every line. -/
def shiftDoc (k : Nat) (s : String) : String :=
  String.mk (joinLines ((splitLines s.data).map (fun l => spacesC k ++ l)))

theorem splitLinesAux_ne_nil (cs acc : List Char) : splitLinesAux cs acc ≠ [] := by
  induction cs generalizing acc with
  | nil => simp [splitLinesAux]
  | cons c cs ih =>
      simp only [splitLinesAux]
      split
      · simp
      · exact ih _

theorem splitLinesAux_no_newline_mem (cs : List Char) :
    ∀ (acc : List Char), '\n' ∉ acc → ∀ l ∈ splitLinesAux cs acc, '\n' ∉ l := by
  induction cs with
  | nil =>
      intro acc hacc l hl
      simp only [splitLinesAux, List.mem_singleton] at hl
      subst hl
      simpa using hacc
  | cons c cs ih =>
      intro acc hacc l hl
      simp only [splitLinesAux] at hl
      by_cases hc : c = '\n'
      · rw [if_pos hc] at hl
        rcases List.mem_cons.mp hl with rfl | hl
        · simpa using hacc
        · exact ih [] (by simp) l hl
      · rw [if_neg hc] at hl
        exact ih (c :: acc) (by
          intro hm
          rcases List.mem_cons.mp hm with h | h
          · exact hc h.symm
          · exact hacc h) l hl

theorem splitLines_no_newline (cs : List Char) : ∀ l ∈ splitLines cs, '\n' ∉ l :=
  splitLinesAux_no_newline_mem cs [] (by simp)

theorem isBlank_shift (k : Nat) (l : List Char) :
    isBlankLine (spacesC k ++ l) = isBlankLine l := by
  unfold isBlankLine
  rw [List.all_append]
  have : (spacesC k).all (fun c => decide (c = ' ')) = true := by
    rw [List.all_eq_true]
    intro c hc
    have := List.eq_of_mem_replicate hc
    simp [this]
  rw [this, Bool.true_and]

theorem countIndent_shift (k : Nat) (l : List Char) :
    countIndentC (spacesC k ++ l) = k + countIndentC l := by
  unfold countIndentC
  rw [takeWhile_append_all _ _ _ (by
    intro c hc
    have := List.eq_of_mem_replicate hc
    simp [this])]
  simp [spacesC]

theorem drop_shift (k n : Nat) (l : List Char) :
    (spacesC k ++ l).drop (k + n) = l.drop n := by
  induction k with
  | zero => simp [spacesC]
  | succ k ih =>
      have : spacesC (k + 1) ++ l = ' ' :: (spacesC k ++ l) := by
        simp [spacesC, List.replicate_succ]
      rw [this]
      have : k + 1 + n = (k + n) + 1 := by omega
      rw [this, List.drop_succ_cons]
      exact ih

theorem numberFrom_map_shift (k i : Nat) (ls : List (List Char)) :
    numberFrom i (ls.map (fun l => spacesC k ++ l)) =
      (numberFrom i ls).map (fun p => (p.1, spacesC k ++ p.2)) := by
  induction ls generalizing i with
  | nil => rfl
  | cons l ls ih =>
      simp only [List.map_cons, numberFrom, ih]

theorem filter_map_shift (k : Nat) (L : List (Nat × List Char)) :
    (L.map (fun p => (p.1, spacesC k ++ p.2))).filter (fun p => !isBlankLine p.2) =
      (L.filter (fun p => !isBlankLine p.2)).map (fun p => (p.1, spacesC k ++ p.2)) := by
  induction L with
  | nil => rfl
  | cons p L ih =>
      obtain ⟨no, cs⟩ := p
      simp only [List.map_cons, List.filter_cons, isBlank_shift]
      cases h : isBlankLine cs with
      | true => simpa [h] using ih
      | false => simp [h, ih]

theorem preLines_shift (k : Nat) (s : String) :
    preLines (shiftDoc k s) = (preLines s).map (fun p => (p.1, spacesC k ++ p.2)) := by
  unfold preLines
  have hsl : splitLines (shiftDoc k s).data =
      (splitLines s.data).map (fun l => spacesC k ++ l) := by
    rw [show (shiftDoc k s).data =
      joinLines ((splitLines s.data).map (fun l => spacesC k ++ l)) from rfl]
    apply splitLines_joinLines
    · cases h : splitLines s.data with
      | nil => exact absurd h (splitLinesAux_ne_nil _ _)
      | cons l ls => simp
    · intro l hl
      obtain ⟨l0, hl0, rfl⟩ := List.mem_map.mp hl
      intro hm
      rcases List.mem_append.mp hm with h | h
      · have := List.eq_of_mem_replicate h
        exact absurd this (by decide)
      · exact splitLines_no_newline s.data l0 hl0 h
  rw [hsl, numberFrom_map_shift, filter_map_shift]

theorem checkLevels_shift (k : Nat) :
    ∀ (L : List (Nat × List Char)) (base prev : Nat),
    ∃ out0, checkLevels base prev L = out0 ∧
      checkLevels (k + base) prev (L.map (fun p => (p.1, spacesC k ++ p.2))) =
        (match out0 with
         | .error e => .error e
         | .ok (out, p2) =>
            .ok (out.map (fun q => (q.1, q.2.1, q.2.2)), p2)) := by
  intro L
  induction L with
  | nil =>
      intro base prev
      exact ⟨.ok ([], prev), rfl, rfl⟩
  | cons p L ih =>
      intro base prev
      obtain ⟨no, cs⟩ := p
      refine ⟨checkLevels base prev ((no, cs) :: L), rfl, ?_⟩
      show checkLevels (k + base) prev ((no, spacesC k ++ cs) :: L.map _) = _
      by_cases h1 : countIndentC cs < base
      · have h1s : countIndentC (spacesC k ++ cs) < k + base := by
          rw [countIndent_shift]
          omega
        simp only [checkLevels, countIndent_shift]
        rw [if_pos (by omega : k + countIndentC cs < k + base),
          if_pos h1]
      · have h1s : ¬ countIndentC (spacesC k ++ cs) < k + base := by
          rw [countIndent_shift]
          omega
        have hsub : countIndentC (spacesC k ++ cs) - (k + base) = countIndentC cs - base := by
          rw [countIndent_shift]
          omega
        simp only [checkLevels]
        rw [if_neg h1s, if_neg h1, hsub]
        by_cases h2 : (countIndentC cs - base) % 4 ≠ 0
        · rw [if_pos h2, if_pos h2]
        · rw [if_neg h2, if_neg h2]
          by_cases h3 : prev + 1 < (countIndentC cs - base) / 4
          · rw [if_pos h3, if_pos h3]
          · rw [if_neg h3, if_neg h3]
            obtain ⟨out0, hL, hLs⟩ := ih base ((countIndentC cs - base) / 4)
            rw [hL, hLs]
            cases out0 with
            | error e => rfl
            | ok pr =>
                obtain ⟨out, p2⟩ := pr
                have hdc : (spacesC k ++ cs).drop (countIndentC (spacesC k ++ cs)) =
                    cs.drop (countIndentC cs) := by
                  rw [countIndent_shift]
                  exact drop_shift k _ cs
                simp only [hdc]
                rfl

/-- C10, amended.  Adding the same leading indentation to every line of a
document never changes the parse result: `from_markdown` takes the first
line's indentation as the root level, so it succeeds on the shifted
document exactly when it succeeds on the stripped one, with the same tree
(and fails with the same error otherwise). -/
theorem c10_shift_invariant (k : Nat) (s : String) :
    from_markdown (shiftDoc k s) = from_markdown s := by
  unfold from_markdown
  rw [preLines_shift]
  cases hP : preLines s with
  | nil => rfl
  | cons p rest =>
      obtain ⟨n0, c0⟩ := p
      show (match checkLevels (countIndentC (spacesC k ++ c0)) 0
          ((n0, spacesC k ++ c0) :: rest.map (fun p => (p.1, spacesC k ++ p.2))) with
        | Except.error e => Except.error e
        | Except.ok (leveled, _) => afterLevels leveled) =
        (match checkLevels (countIndentC c0) 0 ((n0, c0) :: rest) with
        | Except.error e => Except.error e
        | Except.ok (leveled, _) => afterLevels leveled)
      obtain ⟨out0, hL, hLs⟩ := checkLevels_shift k ((n0, c0) :: rest) (countIndentC c0) 0
      rw [show (n0, spacesC k ++ c0) :: rest.map (fun p => (p.1, spacesC k ++ p.2)) =
        ((n0, c0) :: rest).map (fun p => (p.1, spacesC k ++ p.2)) from rfl]
      rw [countIndent_shift, hLs, hL]
      cases out0 with
      | error e => rfl
      | ok pr =>
          obtain ⟨out, p2⟩ := pr
          show afterLevels (out.map (fun q => (q.1, q.2.1, q.2.2))) = afterLevels out
          rw [show out.map (fun q => (q.1, q.2.1, q.2.2)) = out from by simp]

/-! ## Claim C8: malformed indentation is rejected with the offending line. -/

/-- Indentation of the `i`-th entry of a numbered line list. -/
def indOf (L : List (Nat × List Char)) (i : Nat) : Nat :=
  countIndentC ((L.getD i (0, [])).2)

/-- Line number of the `i`-th entry of a numbered line list. -/
def noOf (L : List (Nat × List Char)) (i : Nat) : Nat := (L.getD i (0, [])).1

/-- Level of the `i`-th entry w.r.t. a base indentation. -/
def lvlOf (base : Nat) (L : List (Nat × List Char)) (i : Nat) : Nat :=
  (indOf L i - base) / 4

/-- Indentation of the `i`-th non-blank line of a document. -/
def indAt (s : String) (i : Nat) : Nat := indOf (preLines s) i

/-- 1-based document line number of the `i`-th non-blank line. -/
def lineNoAt (s : String) (i : Nat) : Nat := noOf (preLines s) i

/-- Level of the `i`-th non-blank line, relative to the first line's
indentation (the root level) in units of four spaces. -/
def lvlAt (s : String) (i : Nat) : Nat := (indAt s i - indAt s 0) / 4

/-- The indentation scan reaches the first offending line and fails there
with its line number. -/
theorem checkLevels_error_at (base : Nat) :
    ∀ (L : List (Nat × List Char)) (prev j : Nat),
    j < L.length →
    (∀ i, i < j → base ≤ indOf L i ∧ (indOf L i - base) % 4 = 0 ∧
        lvlOf base L i ≤ (if i = 0 then prev else lvlOf base L (i - 1)) + 1) →
    (indOf L j < base ∨
        (base ≤ indOf L j ∧ (indOf L j - base) % 4 = 0 ∧
          (if j = 0 then prev else lvlOf base L (j - 1)) + 1 < lvlOf base L j)) →
    checkLevels base prev L = .error (.MalformedIndentation (noOf L j)) := by
  intro L
  induction L with
  | nil =>
      intro prev j hlen
      simp at hlen
  | cons p L ih =>
      intro prev j hlen hclean hbad
      obtain ⟨no, cs⟩ := p
      have hind0 : indOf ((no, cs) :: L) 0 = countIndentC cs := rfl
      have h0lvl : lvlOf base ((no, cs) :: L) 0 = (countIndentC cs - base) / 4 := rfl
      cases j with
      | zero =>
          show checkLevels base prev ((no, cs) :: L) = _
          rcases hbad with hb | ⟨hb1, hb2, hb3⟩
          · rw [hind0] at hb
            simp only [checkLevels]
            rw [if_pos hb]
            rfl
          · rw [hind0] at hb1 hb2
            have hb3' : prev + 1 < (countIndentC cs - base) / 4 := by
              rw [h0lvl] at hb3
              simpa using hb3
            simp only [checkLevels]
            rw [if_neg (by omega), if_neg (by omega), if_pos hb3']
            rfl
      | succ j' =>
          have h0 := hclean 0 (by omega)
          rw [hind0] at h0
          have hpass3 : ¬ (prev + 1 < (countIndentC cs - base) / 4) := by
            have h00 := h0.2.2
            rw [h0lvl] at h00
            simp at h00
            omega
          have hshift : ∀ i, indOf ((no, cs) :: L) (i + 1) = indOf L i := fun i => rfl
          have hshiftn : ∀ i, noOf ((no, cs) :: L) (i + 1) = noOf L i := fun i => rfl
          have hshiftl : ∀ i, lvlOf base ((no, cs) :: L) (i + 1) = lvlOf base L i :=
            fun i => rfl
          have hrec := ih ((countIndentC cs - base) / 4) j' (by simpa using hlen)
            (by
              intro i hi
              have hc := hclean (i + 1) (by omega)
              rw [hshift, hshiftl] at hc
              rcases Nat.eq_zero_or_pos i with rfl | hipos
              · refine ⟨hc.1, hc.2.1, ?_⟩
                have := hc.2.2
                rw [if_neg (by omega)] at this
                rw [if_pos rfl]
                rw [show lvlOf base ((no, cs) :: L) 0 = (countIndentC cs - base) / 4
                  from rfl] at this
                exact this
              · refine ⟨hc.1, hc.2.1, ?_⟩
                have := hc.2.2
                rw [if_neg (by omega)] at this
                rw [if_neg (by omega)]
                rw [show i + 1 - 1 = (i - 1) + 1 from by omega, hshiftl] at this
                exact this)
            (by
              rw [hshift j', hshiftl j'] at hbad
              rcases Nat.eq_zero_or_pos j' with rfl | hj'pos
              · rcases hbad with hb | ⟨hb1, hb2, hb3⟩
                · exact .inl hb
                · refine .inr ⟨hb1, hb2, ?_⟩
                  rw [if_neg (by omega), h0lvl] at hb3
                  rw [if_pos rfl]
                  exact hb3
              · rcases hbad with hb | ⟨hb1, hb2, hb3⟩
                · exact .inl hb
                · refine .inr ⟨hb1, hb2, ?_⟩
                  rw [if_neg (by omega)] at hb3
                  rw [if_neg (by omega)]
                  rw [show j' + 1 - 1 = (j' - 1) + 1 from by omega, hshiftl] at hb3
                  exact hb3)
          show checkLevels base prev ((no, cs) :: L) = _
          simp only [checkLevels]
          rw [if_neg (by omega), if_neg (by omega), if_neg hpass3, hrec]
          rfl

/-- C8.  If the `j`-th non-blank line is the first whose indentation is
malformed — it drops below the root level set by the first line, or its
level exceeds the previous line's by more than one — then `from_markdown`
fails with `MalformedIndentation` carrying that line's document line
number, and no tree is returned.  (The clean prefix is required to be
level-aligned, consistent with the four-space unit.) -/
theorem c8_malformed_indentation (s : String) (j : Nat)
    (hj : 1 ≤ j) (hlen : j < (preLines s).length)
    (hclean : ∀ i, 1 ≤ i → i < j →
        indAt s 0 ≤ indAt s i ∧ (indAt s i - indAt s 0) % 4 = 0 ∧
        lvlAt s i ≤ lvlAt s (i - 1) + 1)
    (hbad : indAt s j < indAt s 0 ∨
        (indAt s 0 ≤ indAt s j ∧ (indAt s j - indAt s 0) % 4 = 0 ∧
          lvlAt s (j - 1) + 1 < lvlAt s j)) :
    from_markdown s = .error (.MalformedIndentation (lineNoAt s j)) := by
  cases hP : preLines s with
  | nil =>
      rw [hP] at hlen
      simp at hlen
  | cons p rest =>
      obtain ⟨n0, c0⟩ := p
      have hbase : indAt s 0 = countIndentC c0 := by
        unfold indAt indOf
        rw [hP]
        rfl
      have hlvl : ∀ i, lvlAt s i = lvlOf (countIndentC c0) ((n0, c0) :: rest) i := by
        intro i
        unfold lvlAt lvlOf indAt indOf
        rw [hP, ← hbase]
        rw [show indAt s 0 = countIndentC (((preLines s).getD 0 (0, [])).2) from rfl]
        rw [hP]
      have hindL : ∀ i, indAt s i = indOf ((n0, c0) :: rest) i := by
        intro i
        unfold indAt indOf
        rw [hP]
      have herr := checkLevels_error_at (countIndentC c0) ((n0, c0) :: rest) 0 j
        (by rw [hP] at hlen; exact hlen)
        (by
          intro i hi
          have hind00 : indOf ((n0, c0) :: rest) 0 = countIndentC c0 := rfl
          rcases Nat.eq_zero_or_pos i with rfl | hipos
          · refine ⟨by rw [hind00], by rw [hind00]; simp, ?_⟩
            have hz : lvlOf (countIndentC c0) ((n0, c0) :: rest) 0 = 0 := by
              unfold lvlOf
              rw [hind00]
              simp
            rw [hz]
            omega
          · have hc := hclean i hipos hi
            simp only [hlvl, hindL, hbase] at hc
            exact ⟨hc.1, hc.2.1, by rw [if_neg (by omega)]; exact hc.2.2⟩)
        (by
          simp only [hlvl, hindL, hbase] at hbad
          rcases hbad with hb | ⟨hb1, hb2, hb3⟩
          · exact .inl hb
          · exact .inr ⟨hb1, hb2, by rw [if_neg (by omega)]; exact hb3⟩)
      have hno : lineNoAt s j = noOf ((n0, c0) :: rest) j := by
        unfold lineNoAt noOf
        rw [hP]
      unfold from_markdown
      rw [hP]
      show (match checkLevels (countIndentC c0) 0 ((n0, c0) :: rest) with
        | Except.error e => Except.error e
        | Except.ok (leveled, _) => afterLevels leveled) = _
      rw [herr, hno]

/-- C8, witness: a jump of two levels on the second line is rejected,
naming line 2. -/
theorem c8_malformed_indentation_witness :
    from_markdown "- [ ] a\n        - [ ] b" = .error (.MalformedIndentation 2) := by
  have h := c8_malformed_indentation "- [ ] a\n        - [ ] b" 1 (le_refl 1)
    (by decide)
    (fun i h1 h2 => absurd (lt_of_le_of_lt h1 h2) (lt_irrefl 1))
    (by right; refine ⟨by decide, by decide, by decide⟩)
  rwa [show lineNoAt "- [ ] a\n        - [ ] b" 1 = 2 from by decide] at h

end Cannonball
